import Mathlib

/-!
Verification of the codecat file discovery and classification pipeline.

This file is a shallow embedding of `src/codecat/file_processor.py` and
`src/codecat/file_scanner.py`.  Byte strings are `List Nat` (each entry a
byte value < 256); decoded text is `List Nat` of Unicode code points;
filesystem paths are `String`.  Python functions become Lean functions with
the same names (leading underscores dropped); fallible operations return
`Except`.
-/

namespace Codecat

/-! ## Data model of `file_processor.py` -/

/-- Python `FileStatus` literal type from `file_processor.py`. -/
inductive FileStatus where
  | text_content
  | binary_file
  | read_error
  | skipped_access_error
  deriving DecidableEq, Repr

/-- Python `ProcessedFileData` dataclass: the result of processing a single file. -/
structure ProcessedFileData where
  path : String
  relative_path : String
  status : FileStatus
  content : Option (List Nat) := none
  error_message : Option String := none
  encoding_used : Option String := none
  deriving DecidableEq, Repr

/-- Models Python's `UnicodeDecodeError`: the attributes used by `str(e)`
(`encoding`, `start`, `end`, `reason`) plus the first offending byte
(`object[start]`), which the singular message form prints. -/
structure UnicodeDecodeError where
  encoding : String
  firstByte : Nat
  start : Nat
  stop : Nat
  reason : String
  deriving DecidableEq, Repr

/-- Exceptions `process_file` can raise: a propagated `OSError` (carrying its
rendered `"TypeName: message"` text) or a re-raised `UnicodeDecodeError`. -/
inductive PyError where
  | osError (msg : String)
  | unicodeDecodeError (e : UnicodeDecodeError)
  deriving DecidableEq, Repr

/-- The settings of the effective config dictionary that `process_file`
reads: `config.get("stop_on_error", False)`. -/
structure Config where
  stop_on_error : Bool
  deriving DecidableEq, Repr

/-! ## Character-list string helpers

Python `str` operations modelled on the character list of a Lean `String`
(so that every definition reduces inside the kernel).  `pyLower` models
`str.lower()` on the ASCII range (the only range the repository's patterns
and paths use). -/

/-- Python `s.startswith(pre)`. -/
def strStartsWith (s pre : String) : Bool := pre.data.isPrefixOf s.data

/-- Python `s.endswith(post)`. -/
def strEndsWith (s post : String) : Bool := post.data.isSuffixOf s.data

/-- Python `s[n:]` (by character count). -/
def strDrop (s : String) (n : Nat) : String := String.mk (s.data.drop n)

/-- Python `", ".join(parts)`. -/
def strJoinComma : List String → String
  | [] => ""
  | [s] => s
  | s :: rest => s ++ ", " ++ strJoinComma rest

/-- Python `str.lower()` per character. -/
def pyLower (s : String) : String := String.mk (s.data.map Char.toLower)

/-! ## Constants from `file_processor.py` -/

def TEXT_ENCODINGS_TO_TRY : List String := ["utf-8", "cp1252"]

def BINARY_DETECTION_CHUNK_SIZE : Nat := 4096

def NULL_BYTE_THRESHOLD_PERCENT : ℚ := 10

/-! ## Binary detection heuristic -/

/-- Models `_is_likely_binary_by_nulls`: true when the chunk is non-empty and its
null-byte percentage `(null_bytes / len(chunk)) * 100` strictly exceeds
`NULL_BYTE_THRESHOLD_PERCENT`.  The Python float arithmetic is exact for the
rational comparison at every chunk length that can occur (≤ 4096), so the
comparison is modelled over `ℚ`. -/
def is_likely_binary_by_nulls (chunk : List Nat) : Bool :=
  if chunk.isEmpty then false
  else
    decide (0 < chunk.length ∧
      ((chunk.count 0 : ℚ) / (chunk.length : ℚ)) * 100 > NULL_BYTE_THRESHOLD_PERCENT)

/-! ## Decoders

`bytes.decode(enc, errors="strict")` for the two encodings in
`TEXT_ENCODINGS_TO_TRY`.  These model the CPython codecs: strict UTF-8
(rejecting overlong forms, surrogates and code points above U+10FFFF, with
CPython's error ranges and reason strings) and the `cp1252` charmap codec
(bytes 0x81, 0x8D, 0x8F, 0x90, 0x9D are undefined). -/

/-- Is `b` a UTF-8 continuation byte (`0x80..0xBF`)? -/
def utf8IsCont (b : Nat) : Bool := 0x80 ≤ b && b < 0xC0

/-- Allowed range of the first continuation byte after lead byte `b`,
per the CPython / Unicode UTF-8 validity table. -/
def utf8Cont1Lo (b : Nat) : Nat := if b = 0xE0 then 0xA0 else if b = 0xF0 then 0x90 else 0x80
def utf8Cont1Hi (b : Nat) : Nat := if b = 0xED then 0x9F else if b = 0xF4 then 0x8F else 0xBF

def mkUtf8Error (firstByte start stop : Nat) (reason : String) : UnicodeDecodeError :=
  { encoding := "utf-8", firstByte := firstByte, start := start, stop := stop, reason := reason }

/-- Strict UTF-8 decoding of a byte list starting at absolute position `pos`
(used only for error reporting), returning the code points or the first
`UnicodeDecodeError`, with CPython's error ranges and reasons. -/
def utf8DecodeFrom : List Nat → Nat → Except UnicodeDecodeError (List Nat)
  | [], _ => .ok []
  | b :: rest, pos =>
    if b < 0x80 then
      (utf8DecodeFrom rest (pos + 1)).map (fun cs => b :: cs)
    else if b < 0xC2 then
      .error (mkUtf8Error b pos (pos + 1) "invalid start byte")
    else if b < 0xE0 then
      match rest with
      | [] => .error (mkUtf8Error b pos (pos + 1) "unexpected end of data")
      | b1 :: rest1 =>
        if utf8IsCont b1 then
          (utf8DecodeFrom rest1 (pos + 2)).map
            (fun cs => ((b - 0xC0) * 0x40 + (b1 - 0x80)) :: cs)
        else .error (mkUtf8Error b pos (pos + 1) "invalid continuation byte")
    else if b < 0xF0 then
      match rest with
      | [] => .error (mkUtf8Error b pos (pos + 1) "unexpected end of data")
      | b1 :: rest1 =>
        if utf8Cont1Lo b ≤ b1 && b1 ≤ utf8Cont1Hi b then
          match rest1 with
          | [] => .error (mkUtf8Error b pos (pos + 2) "unexpected end of data")
          | b2 :: rest2 =>
            if utf8IsCont b2 then
              (utf8DecodeFrom rest2 (pos + 3)).map
                (fun cs =>
                  ((b - 0xE0) * 0x1000 + (b1 - 0x80) * 0x40 + (b2 - 0x80)) :: cs)
            else .error (mkUtf8Error b pos (pos + 2) "invalid continuation byte")
        else .error (mkUtf8Error b pos (pos + 1) "invalid continuation byte")
    else if b < 0xF5 then
      match rest with
      | [] => .error (mkUtf8Error b pos (pos + 1) "unexpected end of data")
      | b1 :: rest1 =>
        if utf8Cont1Lo b ≤ b1 && b1 ≤ utf8Cont1Hi b then
          match rest1 with
          | [] => .error (mkUtf8Error b pos (pos + 2) "unexpected end of data")
          | b2 :: rest2 =>
            if utf8IsCont b2 then
              match rest2 with
              | [] => .error (mkUtf8Error b pos (pos + 3) "unexpected end of data")
              | b3 :: rest3 =>
                if utf8IsCont b3 then
                  (utf8DecodeFrom rest3 (pos + 4)).map
                    (fun cs =>
                      ((b - 0xF0) * 0x40000 + (b1 - 0x80) * 0x1000 +
                        (b2 - 0x80) * 0x40 + (b3 - 0x80)) :: cs)
                else .error (mkUtf8Error b pos (pos + 3) "invalid continuation byte")
            else .error (mkUtf8Error b pos (pos + 2) "invalid continuation byte")
        else .error (mkUtf8Error b pos (pos + 1) "invalid continuation byte")
    else
      .error (mkUtf8Error b pos (pos + 1) "invalid start byte")

def utf8Decode (bs : List Nat) : Except UnicodeDecodeError (List Nat) :=
  utf8DecodeFrom bs 0

/-- The cp1252 decoding table: `some` code point, or `none` for the five
undefined bytes.  Bytes below 0x80 and from 0xA0 up map to themselves. -/
def cp1252Map (b : Nat) : Option Nat :=
  if b < 0x80 then some b
  else if b = 0x80 then some 0x20AC
  else if b = 0x82 then some 0x201A
  else if b = 0x83 then some 0x0192
  else if b = 0x84 then some 0x201E
  else if b = 0x85 then some 0x2026
  else if b = 0x86 then some 0x2020
  else if b = 0x87 then some 0x2021
  else if b = 0x88 then some 0x02C6
  else if b = 0x89 then some 0x2030
  else if b = 0x8A then some 0x0160
  else if b = 0x8B then some 0x2039
  else if b = 0x8C then some 0x0152
  else if b = 0x8E then some 0x017D
  else if b = 0x91 then some 0x2018
  else if b = 0x92 then some 0x2019
  else if b = 0x93 then some 0x201C
  else if b = 0x94 then some 0x201D
  else if b = 0x95 then some 0x2022
  else if b = 0x96 then some 0x2013
  else if b = 0x97 then some 0x2014
  else if b = 0x98 then some 0x02DC
  else if b = 0x99 then some 0x2122
  else if b = 0x9A then some 0x0161
  else if b = 0x9B then some 0x203A
  else if b = 0x9C then some 0x0153
  else if b = 0x9E then some 0x017E
  else if b = 0x9F then some 0x0178
  else if 0xA0 ≤ b ∧ b ≤ 0xFF then some b
  else none

/-- Strict cp1252 (charmap codec) decoding from absolute position `pos`.
An undefined byte raises with encoding name `charmap` and reason
`character maps to <undefined>`, as CPython's charmap codec does. -/
def cp1252DecodeFrom : List Nat → Nat → Except UnicodeDecodeError (List Nat)
  | [], _ => .ok []
  | b :: rest, pos =>
    match cp1252Map b with
    | some c => (cp1252DecodeFrom rest (pos + 1)).map (fun cs => c :: cs)
    | none =>
      .error { encoding := "charmap", firstByte := b, start := pos, stop := pos + 1,
               reason := "character maps to <undefined>" }

def cp1252Decode (bs : List Nat) : Except UnicodeDecodeError (List Nat) :=
  cp1252DecodeFrom bs 0

/-- Models `file_bytes.decode(enc, errors="strict")` dispatched on the encoding
name, for the encodings appearing in `TEXT_ENCODINGS_TO_TRY`. -/
def decodeWith (enc : String) (bs : List Nat) : Except UnicodeDecodeError (List Nat) :=
  if enc = "utf-8" then utf8Decode bs
  else if enc = "cp1252" then cp1252Decode bs
  else .error { encoding := enc, firstByte := 0, start := 0, stop := 0,
                reason := "unknown encoding" }

/-! ## Line splitting and joining (`str.splitlines` / `"\n".join`) -/

/-- The code points `str.splitlines` treats as line boundaries:
LF, VT, FF, CR, FS, GS, RS, NEL, LINE SEPARATOR, PARAGRAPH SEPARATOR. -/
def isPyLineBoundary (c : Nat) : Bool :=
  c = 10 || c = 11 || c = 12 || c = 13 || c = 28 || c = 29 || c = 30 ||
  c = 0x85 || c = 0x2028 || c = 0x2029

/-- Models Python `str.splitlines()`: split at each line boundary, treating
CR LF as a single boundary, with no empty final line after a trailing
boundary; the empty string yields no lines. -/
def pySplitlines : List Nat → List (List Nat)
  | [] => []
  | c :: rest =>
    if c = 13 then
      match rest with
      | [] => [[]]
      | d :: rest2 =>
        if d = 10 then [] :: pySplitlines rest2
        else [] :: pySplitlines (d :: rest2)
    else if isPyLineBoundary c then [] :: pySplitlines rest
    else
      match pySplitlines rest with
      | [] => [[c]]
      | l :: ls => (c :: l) :: ls

/-- Models Python `"\n".join(lines)`. -/
def joinNL : List (List Nat) → List Nat
  | [] => []
  | [l] => l
  | l :: ls => l ++ 10 :: joinNL ls

/-- The normalization performed by `_try_decode_bytes`:
`"\n".join(decoded_content.splitlines())`. -/
def pyNormalize (s : List Nat) : List Nat := joinNL (pySplitlines s)

/-! ## `_try_decode_bytes` and `process_file` -/

/-- The `for enc in TEXT_ENCODINGS_TO_TRY` loop body of `_try_decode_bytes`,
threading `last_decode_error`. -/
def tryDecodeLoop (bs : List Nat) :
    List String → Option UnicodeDecodeError →
    Option (List Nat) × Option String × Option UnicodeDecodeError
  | [], last => (none, none, last)
  | enc :: rest, _ =>
    match decodeWith enc bs with
    | .ok decoded_content => (some (pyNormalize decoded_content), some enc, none)
    | .error e => tryDecodeLoop bs rest (some e)

/-- Models `_try_decode_bytes`: first encoding in `TEXT_ENCODINGS_TO_TRY` that
decodes strictly wins; on success line endings are normalized via
`splitlines`/join; on total failure the last decode error is returned. -/
def try_decode_bytes (file_bytes : List Nat) :
    Option (List Nat) × Option String × Option UnicodeDecodeError :=
  tryDecodeLoop file_bytes TEXT_ENCODINGS_TO_TRY none

def hexDigit (n : Nat) : String :=
  if n = 0 then "0" else if n = 1 then "1" else if n = 2 then "2"
  else if n = 3 then "3" else if n = 4 then "4" else if n = 5 then "5"
  else if n = 6 then "6" else if n = 7 then "7" else if n = 8 then "8"
  else if n = 9 then "9" else if n = 10 then "a" else if n = 11 then "b"
  else if n = 12 then "c" else if n = 13 then "d" else if n = 14 then "e"
  else "f"

/-- Printf `0x%02x` rendering of a byte. -/
def hexByte (b : Nat) : String := "0x" ++ hexDigit (b / 16) ++ hexDigit (b % 16)

/-- Models CPython's `str(UnicodeDecodeError)`: the singular form
`'enc' codec can't decode byte 0xXX in position N: reason` when the error
range is one byte, else the range form
`'enc' codec can't decode bytes in position N-M: reason`. -/
def pyUnicodeDecodeErrorStr (e : UnicodeDecodeError) : String :=
  if e.stop = e.start + 1 then
    "'" ++ e.encoding ++ "' codec can't decode byte " ++ hexByte e.firstByte ++
      " in position " ++ toString e.start ++ ": " ++ e.reason
  else
    "'" ++ e.encoding ++ "' codec can't decode bytes in position " ++
      toString e.start ++ "-" ++ toString (e.stop - 1) ++ ": " ++ e.reason

/-- The string `", ".join(TEXT_ENCODINGS_TO_TRY)` rendered once. -/
def encodingsTriedStr : String := strJoinComma TEXT_ENCODINGS_TO_TRY

/-- Models `_handle_decode_failure`: re-raises under `stop_on_error` when a decode
error exists, otherwise builds the `read_error` result whose message lists
the encodings tried and appends the last error's type name and text. -/
def handle_decode_failure (file_path relative_p : String)
    (decode_error : Option UnicodeDecodeError) (config : Config) :
    Except PyError ProcessedFileData :=
  match decode_error with
  | some e =>
    if config.stop_on_error then .error (.unicodeDecodeError e)
    else
      .ok { path := file_path, relative_path := relative_p, status := .read_error,
            error_message := some ("Failed to decode as text using [" ++
              encodingsTriedStr ++ "]." ++
              " Last error (UnicodeDecodeError): " ++ pyUnicodeDecodeErrorStr e) }
  | none =>
    .ok { path := file_path, relative_path := relative_p, status := .read_error,
          error_message := some ("Failed to decode as text using [" ++
            encodingsTriedStr ++ "].") }

/-- The final path component (`Path.name`). -/
def pathBasename (p : String) : String :=
  String.mk ((p.data.reverse.takeWhile (fun c => !(c = '/'))).reverse)

/-- Simplified model of `file_path.relative_to(cli_project_path)` with the
`except ValueError` fallback to `Path(file_path.name)`: strip the project
prefix when it is one, else the base name. -/
def pathRelativeTo (file_path cli_project_path : String) : String :=
  if strStartsWith file_path (cli_project_path ++ "/") then
    strDrop file_path (cli_project_path.length + 1)
  else pathBasename file_path

/-- Models `process_file`.  The filesystem read is abstracted by `readResult`:
`.ok bytes` when `file_path.read_bytes()` succeeds, `.error msg` (carrying
the rendered `"TypeName: message"` of the `OSError`) when it raises. -/
def process_file (file_path cli_project_path : String) (config : Config)
    (readResult : Except String (List Nat)) : Except PyError ProcessedFileData :=
  let relative_p := pathRelativeTo file_path cli_project_path
  match readResult with
  | .error emsg =>
    if config.stop_on_error then .error (.osError emsg)
    else
      .ok { path := file_path, relative_path := relative_p,
            status := .skipped_access_error,
            error_message := some ("OS error accessing file: " ++ emsg) }
  | .ok file_bytes =>
    if file_bytes.isEmpty then
      .ok { path := file_path, relative_path := relative_p, status := .text_content,
            content := some [], encoding_used := TEXT_ENCODINGS_TO_TRY[0]? }
    else if is_likely_binary_by_nulls (file_bytes.take BINARY_DETECTION_CHUNK_SIZE) then
      .ok { path := file_path, relative_path := relative_p, status := .binary_file }
    else
      match try_decode_bytes file_bytes with
      | (some content_str, some encoding_used, _) =>
        .ok { path := file_path, relative_path := relative_p, status := .text_content,
              content := some content_str, encoding_used := some encoding_used }
      | (_, _, decode_error) =>
        handle_decode_failure file_path relative_p decode_error config

/-! ## Glob matching (`fnmatch`)

Models Python's `fnmatch.fnmatch` glob semantics on POSIX (where
`os.path.normcase` is the identity): `*` matches any run of characters
(including `/`), `?` any single character, `[seq]` a character class with
`!` negation and `a-b` ranges; an unterminated `[` is a literal, and a `]`
directly after `[` (or after `[!`) is a class member. -/

/-- Scan a character-class body up to the closing `]`; `none` when the
class is unterminated. -/
def scanClass : List Char → Option (List Char × List Char)
  | [] => none
  | c :: rest =>
    if c = ']' then some ([], rest)
    else
      match scanClass rest with
      | none => none
      | some (s, r) => some (c :: s, r)

/-- Parse the part of a glob pattern following `[`: negation flag, class
members (a leading `]`, possibly after `!`, is a member) and the pattern
remainder after the closing `]`. -/
def parseClass (ps : List Char) : Option (Bool × List Char × List Char) :=
  match ps with
  | '!' :: ']' :: ps2 => (scanClass ps2).map (fun p => (true, ']' :: p.1, p.2))
  | '!' :: ps1 => (scanClass ps1).map (fun p => (true, p.1, p.2))
  | ']' :: ps1 => (scanClass ps1).map (fun p => (false, ']' :: p.1, p.2))
  | _ => (scanClass ps).map (fun p => (false, p.1, p.2))

/-- Does character `c` match the character-class members `cls`
(`a-b` between two members is a range, a trailing `-` is literal)? -/
def classMatch : List Char → Char → Bool
  | a :: '-' :: b :: rest, c =>
    if rest = [] ∧ b = '-' then (a = c) || classMatch ('-' :: b :: rest) c
    else (a ≤ c && c ≤ b) || classMatch rest c
  | a :: rest, c => (a = c) || classMatch rest c
  | [], _ => false

/-- Core glob matcher, `globMatchFuel fuel pattern name`.  The fuel only
makes the recursion structural (hence kernel-computable): every recursive
call strictly decreases `pattern.length + name.length`, so the wrapper's
initial fuel `pattern.length + name.length + 1` is never exhausted and the
`fuel = 0` branch is unreachable. -/
def globMatchFuel : Nat → List Char → List Char → Bool
  | 0, _, _ => false
  | _ + 1, [], [] => true
  | _ + 1, [], _ :: _ => false
  | fuel + 1, '*' :: ps, s =>
    globMatchFuel fuel ps s ||
      (match s with
       | [] => false
       | _ :: s1 => globMatchFuel fuel ('*' :: ps) s1)
  | fuel + 1, '?' :: ps, s =>
    (match s with
     | [] => false
     | _ :: s1 => globMatchFuel fuel ps s1)
  | fuel + 1, '[' :: ps, s =>
    (match s with
     | [] => false
     | c :: s1 =>
       match parseClass ps with
       | none => c = '[' && globMatchFuel fuel ps s1
       | some (neg, cls, rest) => (neg.xor (classMatch cls c)) && globMatchFuel fuel rest s1)
  | fuel + 1, p :: ps, s =>
    (match s with
     | [] => false
     | c :: s1 => p = c && globMatchFuel fuel ps s1)

def globMatch (p s : List Char) : Bool := globMatchFuel (p.length + s.length + 1) p s

/-- Python `fnmatch.fnmatch(name, pat)` (POSIX: `normcase` is the identity). -/
def fnmatch (name pat : String) : Bool := globMatch pat.data name.data

/-! ## Pattern-based exclusion and inclusion (`file_scanner.py`) -/

/-- Python `pattern_to_match.rstrip("/\x2a")`: drop every trailing `/` or `*`. -/
def rstripSlashStar (s : String) : String :=
  ⟨(s.data.reverse.dropWhile (fun c => c = '/' || c = '*')).reverse⟩

/-- Models `_is_path_excluded_by_pattern`: glob match against each pattern, plus
directory-prefix matches for patterns ending in `/` or `/\x2a`, plus the
bare-directory-name prefix match. -/
def is_path_excluded_by_pattern (relative_path_str : String)
    (patterns : List String) (case_sensitive : Bool) : Bool :=
  let path_to_match := if case_sensitive then relative_path_str else pyLower relative_path_str
  patterns.any (fun pattern_item =>
    let pattern_to_match := if case_sensitive then pattern_item else pyLower pattern_item
    fnmatch path_to_match pattern_to_match ||
      (if strEndsWith pattern_to_match "/" || strEndsWith pattern_to_match "/*" then
        strStartsWith path_to_match (rstripSlashStar pattern_to_match ++ "/")
      else
        strStartsWith path_to_match (pattern_to_match ++ "/")))

/-- Models `_is_path_included_by_pattern`: empty pattern list includes everything,
otherwise a plain glob match against any pattern. -/
def is_path_included_by_pattern (relative_path_str : String)
    (patterns : List String) (case_sensitive : Bool) : Bool :=
  if patterns.isEmpty then true
  else
    let path_to_match := if case_sensitive then relative_path_str else pyLower relative_path_str
    patterns.any (fun pattern_item =>
      let pattern_to_match := if case_sensitive then pattern_item else pyLower pattern_item
      fnmatch path_to_match pattern_to_match)

/-! ## Filesystem trees and `scan_project` -/

/-- A directory: named files with byte sizes, and named subdirectories.
This is the tree `os.walk(project_root_path, topdown=True)` traverses. -/
inductive FSDir where
  | node (files : List (String × Nat)) (dirs : List (String × FSDir))

/-- Slash-join of relative path segments (`str(PurePosixPath(...))`). -/
def renderSegs : List String → String
  | [] => ""
  | [s] => s
  | s :: rest => s ++ "/" ++ renderSegs rest

/-- Absolute path of the file or directory at relative segments `segs`
under the project root (paths are taken already resolved). -/
def absString (root : String) (segs : List String) : String :=
  root ++ "/" ++ renderSegs segs

/-- The settings keys of the effective config dictionary that
`scan_project` reads, with their defaults. -/
structure ScanConfig where
  include_patterns : List String := []
  exclude_patterns : List String := []
  exclude_dirs : List String := []
  exclude_files : List String := []
  max_file_size_kb : Nat := 1024

/-- The per-file checks of `scan_project`'s inner loop, in source order:
drop the file if its relative path matches an exclusion pattern, or fails
the inclusion patterns, or its absolute path is in the resolved
`exclude_files` set, or its size exceeds `max_file_size_kb * 1024`
(`_passes_file_specific_checks`); otherwise keep its segment path. -/
def fileKeep (cfg : ScanConfig) (root : String) (rel : List String)
    (f : String × Nat) : Option (List String) :=
  let frel := rel ++ [f.1]
  let relative_path_str := renderSegs frel
  if is_path_excluded_by_pattern relative_path_str cfg.exclude_patterns false then
    none
  else if !(is_path_included_by_pattern relative_path_str cfg.include_patterns false) then
    none
  else if (cfg.exclude_files.map (fun g => root ++ "/" ++ g)).contains
      (root ++ "/" ++ relative_path_str) then
    none
  else if f.2 > cfg.max_file_size_kb * 1024 then
    none
  else
    some frel

/-- The pruning test of `scan_project`'s directory loop: prune when the
bare name or the relative path is in `exclude_dirs`, or the relative path
matches an exclusion pattern. -/
def pruneDir (cfg : ScanConfig) (rel : List String) (n : String) : Bool :=
  cfg.exclude_dirs.contains n ||
  cfg.exclude_dirs.contains (renderSegs (rel ++ [n])) ||
  is_path_excluded_by_pattern (renderSegs (rel ++ [n])) cfg.exclude_patterns false

mutual
/-- One `os.walk` step of `scan_project`, restricted to its observable
effect: the slash-relative segment paths of the files it keeps.  Files of
the current directory pass `fileKeep`; child directories are pruned by
`pruneDir` before descending (`dirnames[:] = dirs_to_keep`). -/
def scanSegs (cfg : ScanConfig) (root : String) : List String → FSDir → List (List String)
  | rel, .node files dirs =>
    files.filterMap (fileKeep cfg root rel) ++ scanSegsDirs cfg root rel dirs

/-- The directory loop of one `os.walk` step: descend into each child that
`pruneDir` keeps. -/
def scanSegsDirs (cfg : ScanConfig) (root : String) :
    List String → List (String × FSDir) → List (List String)
  | _, [] => []
  | rel, d :: rest =>
    (if pruneDir cfg rel d.1 then [] else scanSegs cfg root (rel ++ [d.1]) d.2) ++
      scanSegsDirs cfg root rel rest
end

/-- Python `s.split("/")` on the character list: the list of separator-free
chunks, with empty chunks at the ends and between adjacent separators. -/
def splitSlash : List Char → List (List Char)
  | [] => [[]]
  | c :: rest =>
    match splitSlash rest with
    | [] => [[c]]
    | p :: ps => if c = '/' then [] :: p :: ps else (c :: p) :: ps

/-- Inverse of `splitSlash`: rejoin the chunks with `/`. -/
def joinSlash : List (List Char) → List Char
  | [] => []
  | [p] => p
  | p :: ps => p ++ '/' :: joinSlash ps

/-- The comparison key pathlib uses on POSIX: `_str_normcase.split(sep)`
(`normcase` is the identity), i.e. the path string split on `/`. -/
def pathParts (p : String) : List String := (splitSlash p.data).map String.mk

/-- Python string `<` on the character lists: code-point lexicographic
(the same relation as Lean's `String` order, implemented structurally). -/
def charListLt : List Char → List Char → Bool
  | [], [] => false
  | [], _ :: _ => true
  | _ :: _, [] => false
  | a :: as, b :: bs =>
    if a < b then true else if a = b then charListLt as bs else false

/-- Python string `<` on `String`. -/
def strLt (a b : String) : Bool := charListLt a.data b.data

/-- Python list `<` on parts lists: elementwise by string order, first
difference decides, a strict prefix is smaller. -/
def partsLt : List String → List String → Bool
  | [], [] => false
  | [], _ :: _ => true
  | _ :: _, [] => false
  | a :: as, b :: bs =>
    if strLt a b then true else if a = b then partsLt as bs else false

/-- Python `Path.__lt__` on POSIX (3.11+): parts-wise comparison. -/
def pathLt (a b : String) : Bool := partsLt (pathParts a) (pathParts b)

/-- The reflexive closure of `pathLt`, the order `sorted` arranges by. -/
def pathLe (a b : String) : Bool := pathLt a b || a == b

/-- Insert into a `pathLe`-sorted list, keeping it sorted. -/
def insertPath (a : String) : List String → List String
  | [] => [a]
  | b :: bs => if pathLe a b then a :: b :: bs else b :: insertPath a bs

/-- Models Python `sorted` under the `Path` order.  `sorted` is Timsort,
but `pathLe` is a total antisymmetric order (`pathParts` is injective), so
the sorted permutation is unique and insertion sort computes it. -/
def sortPaths : List String → List String
  | [] => []
  | a :: rest => insertPath a (sortPaths rest)

/-- Models `scan_project` with `project_root_path = cli_project_path = root`
(as `cli_app.py` invokes it): collect the surviving absolute paths into a
set (`dedup` models the set) and return `sorted(list(...))` of them, where
`sorted` compares `pathlib.Path` objects — on POSIX, by the slash-split
parts of the path string, not by the string itself. -/
def scan_project (root : String) (cfg : ScanConfig) (t : FSDir) : List String :=
  sortPaths (((scanSegs cfg root [] t).map (absString root)).dedup)

/-- First subdirectory with the given name. -/
def lookupDir (n : String) : List (String × FSDir) → Option FSDir
  | [] => none
  | d :: rest => if d.1 = n then some d.2 else lookupDir n rest

/-- Navigate to the subdirectory at a segment address. -/
def subdirAt : FSDir → List String → Option FSDir
  | t, [] => some t
  | .node _ dirs, n :: rest =>
    match lookupDir n dirs with
    | some sub => subdirAt sub rest
    | none => none

mutual
/-- Relative segment paths of every file anywhere under a directory. -/
def filesUnderSegs : FSDir → List (List String)
  | .node files dirs =>
    files.map (fun f => [f.1]) ++ filesUnderSegsDirs dirs

def filesUnderSegsDirs : List (String × FSDir) → List (List String)
  | [] => []
  | d :: rest => (filesUnderSegs d.2).map (fun fs => d.1 :: fs) ++ filesUnderSegsDirs rest
end

/-- A name a real filesystem can give a directory entry: non-empty and
without a path separator. -/
def okName (n : String) : Bool := !(n = "") && !(n.data.contains '/')

mutual
/-- Well-formedness of a tree as a real directory: every entry name is a
real name and sibling directory names are distinct. -/
def WFDir : FSDir → Bool
  | .node files dirs =>
    files.all (fun f => okName f.1) &&
    dirs.all (fun d => okName d.1) &&
    decide ((dirs.map (fun d => d.1)).Nodup) &&
    WFDirs dirs

def WFDirs : List (String × FSDir) → Bool
  | [] => true
  | d :: rest => WFDir d.2 && WFDirs rest
end

/-! ## Characterization of the binary heuristic -/

/-- The rational comparison in `is_likely_binary_by_nulls` is the integer
comparison `length < 10 * null-count`. -/
theorem is_likely_binary_iff (chunk : List Nat) :
    is_likely_binary_by_nulls chunk = true ↔
      chunk ≠ [] ∧ chunk.length < chunk.count 0 * 10 := by
  unfold is_likely_binary_by_nulls NULL_BYTE_THRESHOLD_PERCENT
  cases h : chunk.isEmpty with
  | true =>
    simp only [if_pos rfl, List.isEmpty_iff.mp h]
    simp
  | false =>
    have hne : chunk ≠ [] := by
      intro hnil
      rw [hnil] at h
      simp at h
    have hlen : 0 < chunk.length := List.length_pos.mpr hne
    have hlq : (0 : ℚ) < (chunk.length : ℚ) := by exact_mod_cast hlen
    simp only [Bool.false_eq_true, if_false, decide_eq_true_eq, gt_iff_lt]
    rw [div_mul_eq_mul_div, lt_div_iff₀ hlq]
    constructor
    · rintro ⟨-, hc⟩
      refine ⟨hne, ?_⟩
      have hnat : 10 * chunk.length < chunk.count 0 * 100 := by exact_mod_cast hc
      omega
    · rintro ⟨-, hc⟩
      refine ⟨hlen, ?_⟩
      have hnat : 10 * chunk.length < chunk.count 0 * 100 := by omega
      exact_mod_cast hnat

/-- Sufficient integer condition for the heuristic to be false. -/
theorem is_likely_binary_eq_false (chunk : List Nat)
    (h : chunk.count 0 * 10 ≤ chunk.length) :
    is_likely_binary_by_nulls chunk = false := by
  rw [Bool.eq_false_iff, ne_eq, is_likely_binary_iff]
  rintro ⟨-, hlt⟩
  omega

/-! ## Claim theorems for the Classifier -/

/-- C8: an empty byte content yields `text_content` with empty content and
the primary encoding `utf-8`, for every path and configuration; in
particular an empty file is never classified binary. -/
theorem empty_file_is_text (file_path cli_project_path : String) (config : Config) :
    process_file file_path cli_project_path config (.ok []) =
      .ok { path := file_path,
            relative_path := pathRelativeTo file_path cli_project_path,
            status := .text_content, content := some ([] : List Nat),
            encoding_used := some "utf-8" } := rfl

/-- C1: for a non-empty byte string whose inspected prefix (the first
`min(size, 4096)` bytes) has exactly 10.0% null bytes, `process_file` does
not classify the file as binary (the heuristic is false and no outcome has
status `binary_file`); when the prefix's null percentage strictly exceeds
10.0, `process_file` returns the `binary_file` result. -/
theorem binary_detection_boundary
    (file_path cli_project_path : String) (config : Config) (bs : List Nat)
    (hne : bs ≠ []) :
    ((bs.take BINARY_DETECTION_CHUNK_SIZE).count 0 * 10 =
        (bs.take BINARY_DETECTION_CHUNK_SIZE).length →
      is_likely_binary_by_nulls (bs.take BINARY_DETECTION_CHUNK_SIZE) = false ∧
      ∀ r, process_file file_path cli_project_path config (.ok bs) = .ok r →
        r.status ≠ .binary_file) ∧
    ((bs.take BINARY_DETECTION_CHUNK_SIZE).length <
        (bs.take BINARY_DETECTION_CHUNK_SIZE).count 0 * 10 →
      process_file file_path cli_project_path config (.ok bs) =
        .ok { path := file_path,
              relative_path := pathRelativeTo file_path cli_project_path,
              status := .binary_file }) := by
  have hbe : bs.isEmpty = false := by
    cases bs with
    | nil => exact absurd rfl hne
    | cons b rest => rfl
  constructor
  · intro hexact
    have hfalse : is_likely_binary_by_nulls (bs.take BINARY_DETECTION_CHUNK_SIZE) = false := by
      rw [← Bool.not_eq_true, is_likely_binary_iff]
      rintro ⟨-, hlt⟩
      omega
    refine ⟨hfalse, ?_⟩
    intro r hr
    rw [process_file] at hr
    simp only [hbe, Bool.false_eq_true, if_false, hfalse, if_false] at hr
    rcases htd : try_decode_bytes bs with ⟨oc, oe, od⟩
    rw [htd] at hr
    match oc, oe with
    | some c, some e =>
      simp only [] at hr
      cases hr
      simp
    | none, _ =>
      simp only [handle_decode_failure] at hr
      cases od with
      | some err =>
        cases hcfg : config.stop_on_error with
        | true => rw [hcfg] at hr; simp at hr
        | false => rw [hcfg] at hr; simp only [] at hr; cases hr; simp
      | none => simp only [] at hr; cases hr; simp
    | some c, none =>
      simp only [handle_decode_failure] at hr
      cases od with
      | some err =>
        cases hcfg : config.stop_on_error with
        | true => rw [hcfg] at hr; simp at hr
        | false => rw [hcfg] at hr; simp only [] at hr; cases hr; simp
      | none => simp only [] at hr; cases hr; simp
  · intro hgt
    have htrue : is_likely_binary_by_nulls (bs.take BINARY_DETECTION_CHUNK_SIZE) = true := by
      rw [is_likely_binary_iff]
      refine ⟨?_, hgt⟩
      intro hnil
      rw [hnil] at hgt
      simp at hgt
    rw [process_file]
    simp only [hbe, Bool.false_eq_true, if_false, htrue, if_true]

/-- Witness for C1 at concrete inputs: a 10-byte string with one null
(exactly 10.0%) is not binary, and one with two nulls (20%) is. -/
theorem binary_detection_boundary_witness :
    (([0, 1, 1, 1, 1, 1, 1, 1, 1, 1] : List Nat) ≠ [] ∧
      is_likely_binary_by_nulls
        (([0, 1, 1, 1, 1, 1, 1, 1, 1, 1] : List Nat).take BINARY_DETECTION_CHUNK_SIZE) = false) ∧
    process_file "/p/f" "/p" ⟨false⟩ (.ok [0, 0, 1, 1, 1, 1, 1, 1, 1, 1]) =
      .ok { path := "/p/f", relative_path := pathRelativeTo "/p/f" "/p",
            status := .binary_file } := by
  constructor
  · constructor
    · simp
    · exact ((binary_detection_boundary "/p/f" "/p" ⟨false⟩ _ (by simp)).1 (by decide)).1
  · exact (binary_detection_boundary "/p/f" "/p" ⟨false⟩ _ (by simp)).2 (by decide)

/-- A successful decode reports one of the encodings it was given. -/
theorem tryDecodeLoop_encoding_mem (bs : List Nat) :
    ∀ (encs : List String) (last : Option UnicodeDecodeError) (c : List Nat)
      (e : String) (x : Option UnicodeDecodeError),
      tryDecodeLoop bs encs last = (some c, some e, x) → e ∈ encs := by
  intro encs
  induction encs with
  | nil =>
    intro last c e x h
    simp [tryDecodeLoop] at h
  | cons enc rest ih =>
    intro last c e x h
    rw [tryDecodeLoop] at h
    cases hd : decodeWith enc bs with
    | ok s =>
      rw [hd] at h
      simp only [Prod.mk.injEq, Option.some.injEq] at h
      exact h.2.1 ▸ List.mem_cons_self enc rest
    | error err =>
      rw [hd] at h
      exact List.mem_cons_of_mem enc (ih _ _ _ _ h)

/-- C10: every `.ok` result of `process_file` carries the input path; a
`text_content` result has content and one of the two supported encodings;
`binary_file`, `read_error` and `skipped_access_error` results have no
content; and a `binary_file` result also has no error message. -/
theorem processed_file_data_invariants (file_path cli_project_path : String)
    (config : Config) (readResult : Except String (List Nat)) (r : ProcessedFileData)
    (h : process_file file_path cli_project_path config readResult = .ok r) :
    r.path = file_path ∧
    (r.status = .text_content →
      r.content ≠ none ∧
        (r.encoding_used = some "utf-8" ∨ r.encoding_used = some "cp1252")) ∧
    ((r.status = .binary_file ∨ r.status = .read_error ∨
        r.status = .skipped_access_error) → r.content = none) ∧
    (r.status = .binary_file → r.error_message = none) := by
  cases readResult with
  | error emsg =>
    rw [process_file] at h
    cases hcfg : config.stop_on_error with
    | true =>
      rw [hcfg, if_pos rfl] at h
      simp at h
    | false =>
      rw [hcfg, if_neg Bool.false_ne_true] at h
      simp only [Except.ok.injEq] at h
      subst h
      exact ⟨rfl, by simp, by simp, by simp⟩
  | ok file_bytes =>
    rw [process_file] at h
    by_cases hemp : file_bytes.isEmpty
    · rw [if_pos hemp] at h
      simp only [Except.ok.injEq] at h
      subst h
      exact ⟨rfl, fun _ => ⟨by simp, Or.inl rfl⟩, by simp, by simp⟩
    · rw [if_neg hemp] at h
      by_cases hbin :
          is_likely_binary_by_nulls (file_bytes.take BINARY_DETECTION_CHUNK_SIZE) = true
      · rw [if_pos hbin] at h
        simp only [Except.ok.injEq] at h
        subst h
        exact ⟨rfl, by simp, by simp, by simp⟩
      · rw [if_neg hbin] at h
        rcases htd : try_decode_bytes file_bytes with ⟨oc, oe, od⟩
        rw [htd] at h
        match oc, oe with
        | some c, some e =>
          simp only [Except.ok.injEq] at h
          subst h
          refine ⟨rfl, fun _ => ⟨by simp, ?_⟩, by simp, by simp⟩
          have hmem : e ∈ TEXT_ENCODINGS_TO_TRY := by
            have := tryDecodeLoop_encoding_mem file_bytes TEXT_ENCODINGS_TO_TRY none c e od
            exact this htd
          simp only [TEXT_ENCODINGS_TO_TRY, List.mem_cons, List.mem_singleton] at hmem
          rcases hmem with h1 | h2 | h3
          · left; simp [h1]
          · right; simp [h2]
          · simp at h3
        | none, _ =>
          cases od with
          | some err =>
            simp only [handle_decode_failure] at h
            cases hcfg : config.stop_on_error with
            | true =>
              rw [hcfg, if_pos rfl] at h
              simp at h
            | false =>
              rw [hcfg, if_neg Bool.false_ne_true] at h
              simp only [Except.ok.injEq] at h
              subst h
              exact ⟨rfl, by simp, by simp, by simp⟩
          | none =>
            simp only [handle_decode_failure] at h
            simp only [Except.ok.injEq] at h
            subst h
            exact ⟨rfl, by simp, by simp, by simp⟩
        | some c, none =>
          cases od with
          | some err =>
            simp only [handle_decode_failure] at h
            cases hcfg : config.stop_on_error with
            | true =>
              rw [hcfg, if_pos rfl] at h
              simp at h
            | false =>
              rw [hcfg, if_neg Bool.false_ne_true] at h
              simp only [Except.ok.injEq] at h
              subst h
              exact ⟨rfl, by simp, by simp, by simp⟩
          | none =>
            simp only [handle_decode_failure] at h
            simp only [Except.ok.injEq] at h
            subst h
            exact ⟨rfl, by simp, by simp, by simp⟩

/-- A concrete result record used to witness C10. -/
def sampleResult : ProcessedFileData :=
  { path := "/p/f", relative_path := "f", status := .text_content,
    content := some [], encoding_used := some "utf-8" }

/-- Witness for C10 at a concrete input (the empty file). -/
theorem processed_file_data_invariants_witness :
    sampleResult.path = "/p/f" ∧
    (sampleResult.status = .text_content →
      sampleResult.content ≠ none ∧
        (sampleResult.encoding_used = some "utf-8" ∨
          sampleResult.encoding_used = some "cp1252")) ∧
    ((sampleResult.status = .binary_file ∨ sampleResult.status = .read_error ∨
        sampleResult.status = .skipped_access_error) → sampleResult.content = none) ∧
    (sampleResult.status = .binary_file → sampleResult.error_message = none) :=
  processed_file_data_invariants "/p/f" "/p" ⟨false⟩ (.ok []) sampleResult rfl

/-! ## Decode-loop stepping lemmas -/

theorem tryDecodeLoop_cons_ok (bs s : List Nat) (enc : String) (rest : List String)
    (last : Option UnicodeDecodeError) (h : decodeWith enc bs = .ok s) :
    tryDecodeLoop bs (enc :: rest) last = (some (pyNormalize s), some enc, none) := by
  rw [tryDecodeLoop, h]

theorem tryDecodeLoop_cons_err (bs : List Nat) (enc : String) (rest : List String)
    (last : Option UnicodeDecodeError) (e : UnicodeDecodeError)
    (h : decodeWith enc bs = .error e) :
    tryDecodeLoop bs (enc :: rest) last = tryDecodeLoop bs rest (some e) := by
  rw [tryDecodeLoop, h]

/-- C6: on a non-empty, non-binary byte string failing both encodings,
`process_file` without `stop_on_error` returns a `read_error` whose message
names both attempted encodings (`utf-8`, `cp1252`) and renders the final
(cp1252) decode error; with `stop_on_error` it raises that last error. -/
theorem decode_failure_behavior (file_path cli_project_path : String) (bs : List Nat)
    (e1 e2 : UnicodeDecodeError)
    (hne : bs ≠ [])
    (h1 : utf8Decode bs = .error e1)
    (h2 : cp1252Decode bs = .error e2)
    (hbin : is_likely_binary_by_nulls (bs.take BINARY_DETECTION_CHUNK_SIZE) = false) :
    process_file file_path cli_project_path ⟨false⟩ (.ok bs) =
      .ok { path := file_path,
            relative_path := pathRelativeTo file_path cli_project_path,
            status := .read_error,
            error_message := some
              ("Failed to decode as text using [utf-8, cp1252]." ++
                " Last error (UnicodeDecodeError): " ++ pyUnicodeDecodeErrorStr e2) } ∧
    process_file file_path cli_project_path ⟨true⟩ (.ok bs) =
      .error (.unicodeDecodeError e2) := by
  have hbe : bs.isEmpty = false := by
    cases bs with
    | nil => exact absurd rfl hne
    | cons b rest => rfl
  have ha : try_decode_bytes bs = (none, none, some e2) := by
    rw [try_decode_bytes,
      show TEXT_ENCODINGS_TO_TRY = ["utf-8", "cp1252"] from rfl,
      tryDecodeLoop_cons_err bs "utf-8" _ _ e1
        (by rw [show decodeWith "utf-8" bs = utf8Decode bs from rfl, h1]),
      tryDecodeLoop_cons_err bs "cp1252" _ _ e2
        (by rw [show decodeWith "cp1252" bs = cp1252Decode bs from rfl, h2]),
      tryDecodeLoop]
  constructor
  · rw [process_file, hbe, if_neg Bool.false_ne_true, hbin,
      if_neg Bool.false_ne_true, ha]
    rfl
  · rw [process_file, hbe, if_neg Bool.false_ne_true, hbin,
      if_neg Bool.false_ne_true, ha]
    rfl

/-- Witness for C6 at the byte string `[0x81]` (invalid UTF-8 start byte,
undefined in cp1252). -/
theorem decode_failure_behavior_witness :
    process_file "/p/f" "/p" ⟨false⟩ (.ok [0x81]) =
      .ok { path := "/p/f", relative_path := "f", status := .read_error,
            error_message := some
              ("Failed to decode as text using [utf-8, cp1252]." ++
                " Last error (UnicodeDecodeError): " ++
                pyUnicodeDecodeErrorStr
                  ⟨"charmap", 0x81, 0, 1, "character maps to <undefined>"⟩) } ∧
    process_file "/p/f" "/p" ⟨true⟩ (.ok [0x81]) =
      .error (.unicodeDecodeError
        ⟨"charmap", 0x81, 0, 1, "character maps to <undefined>"⟩) :=
  decode_failure_behavior "/p/f" "/p" [0x81]
    ⟨"utf-8", 0x81, 0, 1, "invalid start byte"⟩
    ⟨"charmap", 0x81, 0, 1, "character maps to <undefined>"⟩
    (by simp) rfl rfl (is_likely_binary_eq_false _ (by decide))

/-- C7: a non-empty byte string rejected by strict UTF-8 but accepted by
cp1252 (and not caught by the binary heuristic) yields `text_content` with
`encoding_used = "cp1252"` and the normalized cp1252 decode as content. -/
theorem encoding_fallback (file_path cli_project_path : String) (config : Config)
    (bs d : List Nat) (e1 : UnicodeDecodeError)
    (hne : bs ≠ [])
    (h1 : utf8Decode bs = .error e1)
    (h2 : cp1252Decode bs = .ok d)
    (hbin : is_likely_binary_by_nulls (bs.take BINARY_DETECTION_CHUNK_SIZE) = false) :
    process_file file_path cli_project_path config (.ok bs) =
      .ok { path := file_path,
            relative_path := pathRelativeTo file_path cli_project_path,
            status := .text_content, content := some (pyNormalize d),
            encoding_used := some "cp1252" } := by
  have hbe : bs.isEmpty = false := by
    cases bs with
    | nil => exact absurd rfl hne
    | cons b rest => rfl
  have ha : try_decode_bytes bs = (some (pyNormalize d), some "cp1252", none) := by
    rw [try_decode_bytes,
      show TEXT_ENCODINGS_TO_TRY = ["utf-8", "cp1252"] from rfl,
      tryDecodeLoop_cons_err bs "utf-8" _ _ e1
        (by rw [show decodeWith "utf-8" bs = utf8Decode bs from rfl, h1]),
      tryDecodeLoop_cons_ok bs d "cp1252" _ _
        (by rw [show decodeWith "cp1252" bs = cp1252Decode bs from rfl, h2])]
  rw [process_file, hbe, if_neg Bool.false_ne_true, hbin,
    if_neg Bool.false_ne_true, ha]

/-- Witness for C7 at the byte string `[0x80]` (invalid UTF-8, the euro
sign in cp1252). -/
theorem encoding_fallback_witness :
    process_file "/p/f" "/p" ⟨false⟩ (.ok [0x80]) =
      .ok { path := "/p/f", relative_path := "f", status := .text_content,
            content := some (pyNormalize [0x20AC]),
            encoding_used := some "cp1252" } :=
  encoding_fallback "/p/f" "/p" ⟨false⟩ [0x80] [0x20AC]
    ⟨"utf-8", 0x80, 0, 1, "invalid start byte"⟩ (by simp) rfl rfl
    (is_likely_binary_eq_false _ (by decide))

/-! ## Line-ending normalization: spec-side definitions and equivalence -/

/-- The normalization exactly as C2's sentence describes it: every
occurrence of CR LF, lone CR, and LF becomes a single LF, and nothing else
changes. -/
def specNormalizeNewlines : List Nat → List Nat
  | [] => []
  | 13 :: 10 :: rest => 10 :: specNormalizeNewlines rest
  | 13 :: rest => 10 :: specNormalizeNewlines rest
  | c :: rest => c :: specNormalizeNewlines rest

/-- Spec side of the amended claim: replace every Python line boundary
(CR LF as a unit) by LF. -/
def replaceLineBoundaries : List Nat → List Nat
  | [] => []
  | c :: rest =>
    if c = 13 then
      match rest with
      | [] => [10]
      | d :: rest2 =>
        if d = 10 then 10 :: replaceLineBoundaries rest2
        else 10 :: replaceLineBoundaries (d :: rest2)
    else if isPyLineBoundary c then 10 :: replaceLineBoundaries rest
    else c :: replaceLineBoundaries rest

/-- Remove one trailing LF. -/
def dropTrailingNL (l : List Nat) : List Nat :=
  if l.getLast? = some 10 then l.dropLast else l

/-- Amended normalization: every line boundary becomes LF and a single
trailing line boundary is removed. -/
def specAmendedNormalize (s : List Nat) : List Nat :=
  dropTrailingNL (replaceLineBoundaries s)

theorem pySplitlines_cons (c : Nat) (rest : List Nat) :
    pySplitlines (c :: rest) =
      if c = 13 then
        match rest with
        | [] => [[]]
        | d :: rest2 =>
          if d = 10 then [] :: pySplitlines rest2
          else [] :: pySplitlines (d :: rest2)
      else if isPyLineBoundary c then [] :: pySplitlines rest
      else
        match pySplitlines rest with
        | [] => [[c]]
        | l :: ls => (c :: l) :: ls := by
  rw [pySplitlines.eq_def]

theorem replaceLineBoundaries_cons (c : Nat) (rest : List Nat) :
    replaceLineBoundaries (c :: rest) =
      if c = 13 then
        match rest with
        | [] => [10]
        | d :: rest2 =>
          if d = 10 then 10 :: replaceLineBoundaries rest2
          else 10 :: replaceLineBoundaries (d :: rest2)
      else if isPyLineBoundary c then 10 :: replaceLineBoundaries rest
      else c :: replaceLineBoundaries rest := by
  rw [replaceLineBoundaries.eq_def]

theorem pySplitlines_nil : pySplitlines [] = [] := rfl

theorem replaceLineBoundaries_nil : replaceLineBoundaries [] = [] := rfl

theorem pySplitlines_eq_nil_iff (s : List Nat) : pySplitlines s = [] ↔ s = [] := by
  induction s using pySplitlines.induct with
  | case1 => simp [pySplitlines_nil]
  | case2 => rw [pySplitlines_cons]; simp
  | case3 rest1 ih => rw [pySplitlines_cons]; simp
  | case4 b1 rest1 h ih => rw [pySplitlines_cons]; simp [h]
  | case5 b1 rest1 h13 hb ih => rw [pySplitlines_cons]; simp [h13, hb]
  | case6 b1 rest1 h13 hb hsp ih => rw [pySplitlines_cons]; simp [h13, hb, hsp]
  | case7 b1 rest1 h13 hb l ls hsp ih => rw [pySplitlines_cons]; simp [h13, hb, hsp]

theorem replaceLineBoundaries_eq_nil_iff (s : List Nat) :
    replaceLineBoundaries s = [] ↔ s = [] := by
  induction s using replaceLineBoundaries.induct with
  | case1 => simp [replaceLineBoundaries_nil]
  | case2 => rw [replaceLineBoundaries_cons]; simp
  | case3 rest1 ih => rw [replaceLineBoundaries_cons]; simp
  | case4 b1 rest1 h ih => rw [replaceLineBoundaries_cons]; simp [h]
  | case5 b1 rest1 h13 hb ih => rw [replaceLineBoundaries_cons]; simp [h13, hb]
  | case6 b1 rest1 h13 hb ih => rw [replaceLineBoundaries_cons]; simp [h13, hb]

theorem dropTrailingNL_cons (a : Nat) (x : List Nat) (h : x ≠ []) :
    dropTrailingNL (a :: x) = a :: dropTrailingNL x := by
  cases x with
  | nil => exact absurd rfl h
  | cons b xs =>
    rw [dropTrailingNL, dropTrailingNL, List.getLast?_cons_cons]
    by_cases hl : (b :: xs).getLast? = some 10
    · rw [if_pos hl, if_pos hl]
      rfl
    · rw [if_neg hl, if_neg hl]

theorem joinNL_cons_head (c : Nat) (l : List Nat) (ls : List (List Nat)) :
    joinNL ((c :: l) :: ls) = c :: joinNL (l :: ls) := by
  cases ls with
  | nil => rfl
  | cons m ms => rfl

/-- Shared step: when splitting `s` yields an empty first line over `rest`
and the boundary replacement turns `s` into `10 :: replacement of rest`,
the equivalence propagates. -/
theorem normalize_boundary_step (s rest : List Nat)
    (h1 : pySplitlines s = [] :: pySplitlines rest)
    (h2 : replaceLineBoundaries s = 10 :: replaceLineBoundaries rest)
    (ih : pyNormalize rest = specAmendedNormalize rest) :
    pyNormalize s = specAmendedNormalize s := by
  by_cases hr : rest = []
  · subst hr
    rw [pyNormalize, h1, specAmendedNormalize, h2]
    rfl
  · have hsne : pySplitlines rest ≠ [] := by
      rw [ne_eq, pySplitlines_eq_nil_iff]
      exact hr
    have hrne : replaceLineBoundaries rest ≠ [] := by
      rw [ne_eq, replaceLineBoundaries_eq_nil_iff]
      exact hr
    rcases hsp : pySplitlines rest with _ | ⟨l, ls⟩
    · exact absurd hsp hsne
    · calc pyNormalize s
          = joinNL ([] :: l :: ls) := by rw [pyNormalize, h1, hsp]
        _ = 10 :: joinNL (l :: ls) := rfl
        _ = 10 :: pyNormalize rest := by rw [pyNormalize, hsp]
        _ = 10 :: specAmendedNormalize rest := by rw [ih]
        _ = dropTrailingNL (10 :: replaceLineBoundaries rest) :=
            (dropTrailingNL_cons 10 _ hrne).symm
        _ = specAmendedNormalize s := by rw [specAmendedNormalize, h2]

/-- The join `"\n".join(s.splitlines())` equals the amended normalization: every
line boundary replaced by LF, with one trailing boundary dropped. -/
theorem pyNormalize_eq_specAmendedNormalize (s : List Nat) :
    pyNormalize s = specAmendedNormalize s := by
  induction s using pySplitlines.induct with
  | case1 => rfl
  | case2 => rfl
  | case3 rest1 ih =>
    refine normalize_boundary_step _ rest1 ?_ ?_ ih
    · rw [pySplitlines_cons]; simp
    · rw [replaceLineBoundaries_cons]; simp
  | case4 b1 rest1 hb10 ih =>
    refine normalize_boundary_step _ (b1 :: rest1) ?_ ?_ ih
    · rw [pySplitlines_cons]; simp [hb10]
    · rw [replaceLineBoundaries_cons]; simp [hb10]
  | case5 b1 rest1 h13 hb ih =>
    refine normalize_boundary_step _ rest1 ?_ ?_ ih
    · rw [pySplitlines_cons]; simp [h13, hb]
    · rw [replaceLineBoundaries_cons]; simp [h13, hb]
  | case6 b1 rest1 h13 hb hsp ih =>
    have hr : rest1 = [] := (pySplitlines_eq_nil_iff rest1).mp hsp
    subst hr
    have hb10 : b1 ≠ 10 := by
      intro h
      subst h
      simp [isPyLineBoundary] at hb
    rw [pyNormalize]
    rw [show pySplitlines [b1] = [[b1]] by
      rw [pySplitlines_cons]; simp [h13, hb, pySplitlines_nil]]
    rw [specAmendedNormalize]
    rw [show replaceLineBoundaries [b1] = [b1] by
      rw [replaceLineBoundaries_cons]; simp [h13, hb, replaceLineBoundaries_nil]]
    rw [dropTrailingNL]
    rw [if_neg (by simp [hb10])]
    rfl
  | case7 b1 rest1 h13 hb l ls hsp ih =>
    have hrne : rest1 ≠ [] := by
      intro h
      subst h
      rw [pySplitlines_nil] at hsp
      exact List.noConfusion hsp
    have hre : replaceLineBoundaries rest1 ≠ [] := by
      rw [ne_eq, replaceLineBoundaries_eq_nil_iff]
      exact hrne
    calc pyNormalize (b1 :: rest1)
        = joinNL ((b1 :: l) :: ls) := by
          rw [pyNormalize]
          rw [pySplitlines_cons]
          simp [h13, hb, hsp]
      _ = b1 :: joinNL (l :: ls) := joinNL_cons_head b1 l ls
      _ = b1 :: pyNormalize rest1 := by rw [pyNormalize, hsp]
      _ = b1 :: specAmendedNormalize rest1 := by rw [ih]
      _ = dropTrailingNL (b1 :: replaceLineBoundaries rest1) :=
          (dropTrailingNL_cons b1 _ hre).symm
      _ = specAmendedNormalize (b1 :: rest1) := by
          rw [specAmendedNormalize]
          congr 1
          rw [replaceLineBoundaries_cons]
          simp [h13, hb]

/-- Computation rule for `process_file` on bytes that decode as UTF-8 (used
to evaluate the model at concrete inputs, since the heuristic's rational
comparison is established through `is_likely_binary_eq_false`). -/
theorem process_file_text_utf8 (file_path cli_project_path : String)
    (config : Config) (bs d : List Nat)
    (hne : bs ≠ [])
    (hbin : is_likely_binary_by_nulls (bs.take BINARY_DETECTION_CHUNK_SIZE) = false)
    (h1 : utf8Decode bs = .ok d) :
    process_file file_path cli_project_path config (.ok bs) =
      .ok { path := file_path,
            relative_path := pathRelativeTo file_path cli_project_path,
            status := .text_content, content := some (pyNormalize d),
            encoding_used := some "utf-8" } := by
  have hbe : bs.isEmpty = false := by
    cases bs with
    | nil => exact absurd rfl hne
    | cons b rest => rfl
  have ha : try_decode_bytes bs = (some (pyNormalize d), some "utf-8", none) := by
    rw [try_decode_bytes,
      show TEXT_ENCODINGS_TO_TRY = ["utf-8", "cp1252"] from rfl,
      tryDecodeLoop_cons_ok bs d "utf-8" _ _
        (by rw [show decodeWith "utf-8" bs = utf8Decode bs from rfl, h1])]
  rw [process_file, hbe, if_neg Bool.false_ne_true, hbin,
    if_neg Bool.false_ne_true, ha]

/-- C2 counterexample: for the byte string `"a\n"` the returned content is
`"a"`, while normalizing only the line-ending variants of the decoded text
(which is already LF-normalized) keeps the trailing newline, so the claim's
equation fails: the code also drops a trailing line terminator. -/
theorem normalization_counterexample :
    process_file "/p/f" "/p" ⟨false⟩ (.ok [97, 10]) =
      .ok { path := "/p/f", relative_path := "f", status := .text_content,
            content := some [97], encoding_used := some "utf-8" } ∧
    utf8Decode [97, 10] = .ok [97, 10] ∧
    specNormalizeNewlines [97, 10] = [97, 10] ∧
    some [97] ≠ some ([97, 10] : List Nat) := by
  refine ⟨?_, rfl, rfl, by simp⟩
  rw [process_file_text_utf8 "/p/f" "/p" ⟨false⟩ [97, 10] [97, 10] (by simp)
    (is_likely_binary_eq_false _ (by decide)) rfl]
  rfl

/-- C2 amended: the content of a successful `text_content` result is the
decoded text with every Python line boundary (CR LF, CR, LF, and also VT,
FF, FS, GS, RS, NEL, LINE SEPARATOR, PARAGRAPH SEPARATOR) replaced by LF
and a single trailing line boundary removed. -/
theorem text_content_normalization_amended
    (file_path cli_project_path : String) (config : Config) (bs : List Nat)
    (r : ProcessedFileData)
    (h : process_file file_path cli_project_path config (.ok bs) = .ok r)
    (hst : r.status = .text_content) :
    ∃ d : List Nat,
      ((r.encoding_used = some "utf-8" ∧ utf8Decode bs = .ok d) ∨
        (r.encoding_used = some "cp1252" ∧ cp1252Decode bs = .ok d)) ∧
      r.content = some (specAmendedNormalize d) := by
  rw [process_file] at h
  by_cases hemp : bs.isEmpty
  · rw [if_pos hemp] at h
    simp only [Except.ok.injEq] at h
    subst h
    refine ⟨[], Or.inl ⟨rfl, ?_⟩, rfl⟩
    rw [List.isEmpty_iff.mp hemp]
    rfl
  · rw [if_neg hemp] at h
    by_cases hbin :
        is_likely_binary_by_nulls (bs.take BINARY_DETECTION_CHUNK_SIZE) = true
    · rw [if_pos hbin] at h
      simp only [Except.ok.injEq] at h
      subst h
      simp at hst
    · rw [if_neg hbin] at h
      rcases h1 : utf8Decode bs with e1 | d1
      · rcases h2 : cp1252Decode bs with e2 | d2
        · have ha : try_decode_bytes bs = (none, none, some e2) := by
            rw [try_decode_bytes,
              show TEXT_ENCODINGS_TO_TRY = ["utf-8", "cp1252"] from rfl,
              tryDecodeLoop_cons_err bs "utf-8" _ _ e1
                (by rw [show decodeWith "utf-8" bs = utf8Decode bs from rfl, h1]),
              tryDecodeLoop_cons_err bs "cp1252" _ _ e2
                (by rw [show decodeWith "cp1252" bs = cp1252Decode bs from rfl, h2]),
              tryDecodeLoop]
          rw [ha] at h
          simp only [handle_decode_failure] at h
          cases hcfg : config.stop_on_error with
          | true => rw [hcfg, if_pos rfl] at h; simp at h
          | false =>
            rw [hcfg, if_neg Bool.false_ne_true] at h
            simp only [Except.ok.injEq] at h
            subst h
            simp at hst
        · have ha : try_decode_bytes bs =
              (some (pyNormalize d2), some "cp1252", none) := by
            rw [try_decode_bytes,
              show TEXT_ENCODINGS_TO_TRY = ["utf-8", "cp1252"] from rfl,
              tryDecodeLoop_cons_err bs "utf-8" _ _ e1
                (by rw [show decodeWith "utf-8" bs = utf8Decode bs from rfl, h1]),
              tryDecodeLoop_cons_ok bs d2 "cp1252" _ _
                (by rw [show decodeWith "cp1252" bs = cp1252Decode bs from rfl, h2])]
          rw [ha] at h
          simp only [Except.ok.injEq] at h
          subst h
          exact ⟨d2, Or.inr ⟨rfl, rfl⟩, by
            simp [pyNormalize_eq_specAmendedNormalize]⟩
      · have ha : try_decode_bytes bs =
            (some (pyNormalize d1), some "utf-8", none) := by
          rw [try_decode_bytes,
            show TEXT_ENCODINGS_TO_TRY = ["utf-8", "cp1252"] from rfl,
            tryDecodeLoop_cons_ok bs d1 "utf-8" _ _
              (by rw [show decodeWith "utf-8" bs = utf8Decode bs from rfl, h1])]
        rw [ha] at h
        simp only [Except.ok.injEq] at h
        subst h
        exact ⟨d1, Or.inl ⟨rfl, rfl⟩, by
          simp [pyNormalize_eq_specAmendedNormalize]⟩

/-- Witness for the amended C2 at the byte string `"a\r"`. -/
theorem text_content_normalization_amended_witness :
    ∃ d : List Nat,
      ((({ path := "/p/f", relative_path := "f", status := .text_content,
            content := some [97], encoding_used := some "utf-8" }
              : ProcessedFileData).encoding_used = some "utf-8" ∧
          utf8Decode [97, 13] = .ok d) ∨
        (({ path := "/p/f", relative_path := "f", status := .text_content,
            content := some [97], encoding_used := some "utf-8" }
              : ProcessedFileData).encoding_used = some "cp1252" ∧
          cp1252Decode [97, 13] = .ok d)) ∧
      ({ path := "/p/f", relative_path := "f", status := .text_content,
          content := some [97], encoding_used := some "utf-8" }
            : ProcessedFileData).content = some (specAmendedNormalize d) :=
  text_content_normalization_amended "/p/f" "/p" ⟨false⟩ [97, 13] _
    (by
      rw [process_file_text_utf8 "/p/f" "/p" ⟨false⟩ [97, 13] [97, 13] (by simp)
        (is_likely_binary_eq_false _ (by decide)) rfl]
      rfl) rfl

/-! ## Claim theorems for the Scanner -/

/-- Single-pattern form of the exclusion test's disjunction. -/
theorem excluded_pattern_iff (path p : String) :
    (fnmatch path p ||
      (if strEndsWith p "/" || strEndsWith p "/*" then
        strStartsWith path (rstripSlashStar p ++ "/")
      else strStartsWith path (p ++ "/"))) = true ↔
    (fnmatch path p = true ∨
      ((strEndsWith p "/" || strEndsWith p "/*") = true ∧
        strStartsWith path (rstripSlashStar p ++ "/") = true) ∨
      ((strEndsWith p "/" || strEndsWith p "/*") = false ∧
        strStartsWith path (p ++ "/") = true)) := by
  by_cases he : (strEndsWith p "/" || strEndsWith p "/*") = true
  · simp [he]
  · simp only [Bool.not_eq_true] at he
    simp [he]

/-- The exclusion disjunction exactly as C3's sentence lists it, over
already case-folded path and patterns: a glob match, or a directory-prefix
match for a pattern ending in `/` or `/*`, or a bare-pattern prefix
match. -/
def specPathExcluded (path : String) (patterns : List String) : Prop :=
  (∃ p ∈ patterns, fnmatch path p = true) ∨
  (∃ p ∈ patterns, (strEndsWith p "/" || strEndsWith p "/*") = true ∧
      strStartsWith path (rstripSlashStar p ++ "/") = true) ∨
  (∃ p ∈ patterns, (strEndsWith p "/" || strEndsWith p "/*") = false ∧
      strStartsWith path (p ++ "/") = true)

/-- C3: the exclusion test returns true exactly when the (case-folded)
path glob-matches some pattern, or is nested under the directory prefix of
a pattern ending in `/` or `/*`, or starts with a bare pattern plus
`/`. -/
theorem exclusion_test_characterization (relative_path_str : String)
    (patterns : List String) (case_sensitive : Bool) :
    is_path_excluded_by_pattern relative_path_str patterns case_sensitive = true ↔
      specPathExcluded
        (if case_sensitive then relative_path_str else pyLower relative_path_str)
        (patterns.map (fun p => if case_sensitive then p else pyLower p)) := by
  simp only [is_path_excluded_by_pattern, List.any_eq_true, excluded_pattern_iff,
    specPathExcluded, List.mem_map]
  constructor
  · rintro ⟨p, hp, hf | ⟨he, hs⟩ | ⟨he, hs⟩⟩
    · exact Or.inl ⟨_, ⟨p, hp, rfl⟩, hf⟩
    · exact Or.inr (Or.inl ⟨_, ⟨p, hp, rfl⟩, he, hs⟩)
    · exact Or.inr (Or.inr ⟨_, ⟨p, hp, rfl⟩, he, hs⟩)
  · rintro (⟨q, ⟨p, hp, hq⟩, hf⟩ | ⟨q, ⟨p, hp, hq⟩, he, hs⟩ | ⟨q, ⟨p, hp, hq⟩, he, hs⟩)
    · exact ⟨p, hp, Or.inl (hq ▸ hf)⟩
    · exact ⟨p, hp, Or.inr (Or.inl (hq ▸ ⟨he, hs⟩))⟩
    · exact ⟨p, hp, Or.inr (Or.inr (hq ▸ ⟨he, hs⟩))⟩

/-! ## The Path order: split/join inverses and order properties -/

theorem splitSlash_ne_nil : ∀ l : List Char, splitSlash l ≠ []
  | [] => by simp [splitSlash]
  | c :: rest => by
    rw [splitSlash]
    cases h : splitSlash rest with
    | nil => simp
    | cons p ps =>
      by_cases hc : c = '/'
      · simp [hc]
      · simp [hc]

theorem joinSlash_cons (p q : List Char) (ps : List (List Char)) :
    joinSlash (p :: q :: ps) = p ++ '/' :: joinSlash (q :: ps) := rfl

theorem joinSlash_splitSlash : ∀ l : List Char, joinSlash (splitSlash l) = l
  | [] => rfl
  | c :: rest => by
    have ih := joinSlash_splitSlash rest
    rw [splitSlash]
    cases h : splitSlash rest with
    | nil => exact absurd h (splitSlash_ne_nil rest)
    | cons p ps =>
      rw [h] at ih
      show joinSlash (if c = '/' then [] :: p :: ps else (c :: p) :: ps) = c :: rest
      by_cases hc : c = '/'
      · rw [if_pos hc, joinSlash_cons, ih, hc]
        rfl
      · rw [if_neg hc]
        cases ps with
        | nil =>
          rw [show joinSlash [c :: p] = c :: p from rfl]
          rw [show joinSlash [p] = p from rfl] at ih
          rw [ih]
        | cons q qs =>
          rw [joinSlash_cons p q qs] at ih
          rw [joinSlash_cons (c :: p) q qs, List.cons_append, ih]

theorem pathParts_inj {a b : String} (h : pathParts a = pathParts b) : a = b := by
  rw [pathParts, pathParts] at h
  have hmkinj : Function.Injective String.mk := fun x y hxy => by injection hxy
  have hs : splitSlash a.data = splitSlash b.data :=
    List.map_injective_iff.mpr hmkinj h
  have hj := congrArg joinSlash hs
  rw [joinSlash_splitSlash, joinSlash_splitSlash] at hj
  cases a
  cases b
  exact congrArg String.mk hj

theorem charListLt_asymm_eq :
    ∀ x y : List Char, charListLt x y = false → charListLt y x = false → x = y
  | [], [] => fun _ _ => rfl
  | [], _ :: _ => fun h _ => by rw [charListLt] at h; exact absurd h (by simp)
  | _ :: _, [] => fun _ h => by rw [charListLt] at h; exact absurd h (by simp)
  | a :: as, b :: bs => fun h1 h2 => by
    rw [charListLt] at h1 h2
    rcases lt_trichotomy a b with hab | hab | hab
    · rw [if_pos hab] at h1
      exact absurd h1 (by simp)
    · subst hab
      rw [if_neg (lt_irrefl a), if_pos rfl] at h1 h2
      rw [charListLt_asymm_eq as bs h1 h2]
    · rw [if_pos hab] at h2
      exact absurd h2 (by simp)

theorem charListLt_trans :
    ∀ x y z : List Char, charListLt x y = true → charListLt y z = true →
      charListLt x z = true := by
  intro x
  induction x with
  | nil =>
    intro y z h1 h2
    cases y with
    | nil => rw [charListLt] at h1; exact absurd h1 (by simp)
    | cons b bs =>
      cases z with
      | nil => rw [charListLt] at h2; exact absurd h2 (by simp)
      | cons c cs => rw [charListLt]
  | cons a as ih =>
    intro y z h1 h2
    cases y with
    | nil => rw [charListLt] at h1; exact absurd h1 (by simp)
    | cons b bs =>
      cases z with
      | nil => rw [charListLt] at h2; exact absurd h2 (by simp)
      | cons c cs =>
        rw [charListLt] at h1 h2 ⊢
        by_cases hab : a < b
        · rw [if_pos hab] at h1
          by_cases hbc : b < c
          · rw [if_pos (lt_trans hab hbc)]
          · rw [if_neg hbc] at h2
            by_cases hbc2 : b = c
            · rw [← hbc2, if_pos hab]
            · rw [if_neg hbc2] at h2
              exact absurd h2 (by simp)
        · rw [if_neg hab] at h1
          by_cases hab2 : a = b
          · rw [if_pos hab2] at h1
            subst hab2
            by_cases hac : a < c
            · rw [if_pos hac]
            · rw [if_neg hac] at h2 ⊢
              by_cases hac2 : a = c
              · rw [if_pos hac2] at h2 ⊢
                exact ih bs cs h1 h2
              · rw [if_neg hac2] at h2
                exact absurd h2 (by simp)
          · rw [if_neg hab2] at h1
            exact absurd h1 (by simp)

theorem strLt_asymm_eq {a b : String} (h1 : strLt a b = false)
    (h2 : strLt b a = false) : a = b := by
  have hd := charListLt_asymm_eq a.data b.data h1 h2
  cases a
  cases b
  exact congrArg String.mk hd

theorem strLt_trans {a b c : String} (h1 : strLt a b = true)
    (h2 : strLt b c = true) : strLt a c = true :=
  charListLt_trans a.data b.data c.data h1 h2

theorem partsLt_asymm_eq :
    ∀ x y : List String, partsLt x y = false → partsLt y x = false → x = y
  | [], [] => fun _ _ => rfl
  | [], _ :: _ => fun h _ => by rw [partsLt] at h; exact absurd h (by simp)
  | _ :: _, [] => fun _ h => by rw [partsLt] at h; exact absurd h (by simp)
  | a :: as, b :: bs => fun h1 h2 => by
    rw [partsLt] at h1 h2
    by_cases hab : strLt a b = true
    · rw [if_pos hab] at h1
      exact absurd h1 (by simp)
    · by_cases hba : strLt b a = true
      · rw [if_pos hba] at h2
        exact absurd h2 (by simp)
      · have he : a = b := strLt_asymm_eq (by simpa using hab) (by simpa using hba)
        subst he
        rw [if_neg hab, if_pos rfl] at h1
        rw [if_neg hba, if_pos rfl] at h2
        rw [partsLt_asymm_eq as bs h1 h2]

theorem partsLt_trans :
    ∀ x y z : List String, partsLt x y = true → partsLt y z = true →
      partsLt x z = true := by
  intro x
  induction x with
  | nil =>
    intro y z h1 h2
    cases y with
    | nil => rw [partsLt] at h1; exact absurd h1 (by simp)
    | cons b bs =>
      cases z with
      | nil => rw [partsLt] at h2; exact absurd h2 (by simp)
      | cons c cs => rw [partsLt]
  | cons a as ih =>
    intro y z h1 h2
    cases y with
    | nil => rw [partsLt] at h1; exact absurd h1 (by simp)
    | cons b bs =>
      cases z with
      | nil => rw [partsLt] at h2; exact absurd h2 (by simp)
      | cons c cs =>
        rw [partsLt] at h1 h2 ⊢
        by_cases hab : strLt a b = true
        · rw [if_pos hab] at h1
          by_cases hbc : strLt b c = true
          · rw [if_pos (strLt_trans hab hbc)]
          · rw [if_neg hbc] at h2
            by_cases hbc2 : b = c
            · rw [← hbc2, if_pos hab]
            · rw [if_neg hbc2] at h2
              exact absurd h2 (by simp)
        · rw [if_neg hab] at h1
          by_cases hab2 : a = b
          · rw [if_pos hab2] at h1
            subst hab2
            by_cases hac : strLt a c = true
            · rw [if_pos hac]
            · rw [if_neg hac] at h2 ⊢
              by_cases hac2 : a = c
              · rw [if_pos hac2] at h2 ⊢
                exact ih bs cs h1 h2
              · rw [if_neg hac2] at h2
                exact absurd h2 (by simp)
          · rw [if_neg hab2] at h1
            exact absurd h1 (by simp)

theorem pathLe_total (a b : String) : pathLe a b = true ∨ pathLe b a = true := by
  by_cases h1 : pathLt a b = true
  · left
    simp [pathLe, h1]
  · by_cases h2 : pathLt b a = true
    · right
      simp [pathLe, h2]
    · left
      have hab : a = b := pathParts_inj
        (partsLt_asymm_eq _ _ (by simpa using h1) (by simpa using h2))
      simp [pathLe, hab]

theorem pathLe_trans {a b c : String} (h1 : pathLe a b = true)
    (h2 : pathLe b c = true) : pathLe a c = true := by
  rw [pathLe, Bool.or_eq_true, beq_iff_eq] at h1 h2 ⊢
  rcases h1 with h1 | rfl
  · rcases h2 with h2 | rfl
    · exact Or.inl (partsLt_trans _ _ _ h1 h2)
    · exact Or.inl h1
  · exact h2

/-! ## The sort: permutation and sortedness -/

theorem insertPath_perm (a : String) :
    ∀ l : List String, List.Perm (insertPath a l) (a :: l)
  | [] => List.Perm.refl _
  | b :: bs => by
    rw [insertPath]
    by_cases h : pathLe a b = true
    · rw [if_pos h]
    · rw [if_neg h]
      exact ((insertPath_perm a bs).cons b).trans (List.Perm.swap a b bs)

theorem sortPaths_perm : ∀ l : List String, List.Perm (sortPaths l) l
  | [] => List.Perm.refl _
  | a :: rest => by
    rw [sortPaths]
    exact (insertPath_perm a (sortPaths rest)).trans ((sortPaths_perm rest).cons a)

theorem insertPath_pairwise (a : String) :
    ∀ l : List String, List.Pairwise (fun x y => pathLe x y = true) l →
      List.Pairwise (fun x y => pathLe x y = true) (insertPath a l)
  | [], _ => by simp [insertPath]
  | b :: bs, hp => by
    rw [insertPath]
    obtain ⟨hb, hbs⟩ := List.pairwise_cons.mp hp
    by_cases h : pathLe a b = true
    · rw [if_pos h]
      refine List.pairwise_cons.mpr ⟨?_, hp⟩
      intro x hx
      rcases List.mem_cons.mp hx with rfl | hm
      · exact h
      · exact pathLe_trans h (hb x hm)
    · rw [if_neg h]
      have hba : pathLe b a = true := (pathLe_total a b).resolve_left h
      refine List.pairwise_cons.mpr ⟨?_, insertPath_pairwise a bs hbs⟩
      intro x hx
      rcases List.mem_cons.mp ((insertPath_perm a bs).mem_iff.mp hx) with rfl | hm
      · exact hba
      · exact hb x hm

theorem sortPaths_pairwise :
    ∀ l : List String, List.Pairwise (fun x y => pathLe x y = true) (sortPaths l)
  | [] => List.Pairwise.nil
  | a :: rest => by
    rw [sortPaths]
    exact insertPath_pairwise a (sortPaths rest) (sortPaths_pairwise rest)

/-- C9 counterexample: with a file `utils.py` beside a directory `utils`,
the scanner's output follows the `Path` parts order, which puts
`/r/utils/x.py` before `/r/utils.py`; that list is not ascending by the
absolute-path string (where `.` sorts before `/`), so the original claim's
string ordering fails. -/
theorem scan_order_counterexample :
    scan_project "/r" {}
        (.node [("utils.py", 1)] [("utils", .node [("x.py", 1)] [])]) =
      ["/r/utils/x.py", "/r/utils.py"] ∧
    ¬ List.Sorted (· < ·) ["/r/utils/x.py", ("/r/utils.py" : String)] := by
  constructor
  · rfl
  · intro hs
    have hlt := List.rel_of_sorted_cons hs "/r/utils.py" (List.mem_singleton.mpr rfl)
    rw [String.lt_iff_toList_lt] at hlt
    revert hlt
    decide

/-- C9 amended: the scanner's output is strictly ascending in the order
Python sorts `Path` objects by on POSIX — componentwise on the slash-split
parts of the absolute path string — hence sorted and duplicate-free, and
rescanning the same tree with the same configuration is deterministic. -/
theorem scan_output_sorted_and_deterministic (root : String) (cfg : ScanConfig)
    (t : FSDir) :
    List.Pairwise (fun a b => pathLt a b = true) (scan_project root cfg t) ∧
    scan_project root cfg t = scan_project root cfg t := by
  refine ⟨?_, rfl⟩
  have hle := sortPaths_pairwise
    (((scanSegs cfg root [] t).map (absString root)).dedup)
  have hnd : (scan_project root cfg t).Nodup :=
    (sortPaths_perm _).nodup_iff.mpr (List.nodup_dedup _)
  rw [scan_project] at hnd ⊢
  refine (hle.and hnd).imp ?_
  intro a b hab
  obtain ⟨h1, h2⟩ := hab
  rw [pathLe, Bool.or_eq_true, beq_iff_eq] at h1
  exact h1.resolve_right h2

/-! ## Scanner membership infrastructure -/

theorem stringAppend_left_cancel {a b c : String} (h : a ++ b = a ++ c) : b = c := by
  have hd : a.data ++ b.data = a.data ++ c.data := by
    rw [← String.data_append, ← String.data_append, h]
  have hbc := List.append_cancel_left hd
  cases b
  cases c
  exact congrArg String.mk hbc

/-- Membership in the scanner's final sorted list is membership in the
collected set of kept segment paths. -/
theorem mem_scan_project {root : String} {cfg : ScanConfig} {t : FSDir} {p : String} :
    p ∈ scan_project root cfg t ↔
      ∃ segs ∈ scanSegs cfg root [] t, absString root segs = p := by
  rw [scan_project, (sortPaths_perm _).mem_iff, List.mem_dedup, List.mem_map]

/-- What a kept file record means. -/
theorem fileKeep_eq_some {cfg : ScanConfig} {root : String} {rel : List String}
    {f : String × Nat} {out : List String}
    (h : fileKeep cfg root rel f = some out) :
    out = rel ++ [f.1] ∧
    is_path_excluded_by_pattern (renderSegs (rel ++ [f.1]))
      cfg.exclude_patterns false = false ∧
    is_path_included_by_pattern (renderSegs (rel ++ [f.1]))
      cfg.include_patterns false = true := by
  rw [fileKeep] at h
  split at h
  · simp at h
  · split at h
    · simp at h
    · split at h
      · simp at h
      · split at h
        · simp at h
        · rename_i h1 h2 h3 h4
          simp only [Option.some.injEq] at h
          subst h
          refine ⟨rfl, by simpa using h1, ?_⟩
          simpa using h2

mutual
/-- Every path the scanner keeps extends the current relative position and
does not match an exclusion pattern. -/
theorem mem_scanSegs_shape {cfg : ScanConfig} {root : String} :
    ∀ (t : FSDir) (rel out : List String), out ∈ scanSegs cfg root rel t →
      (∃ loc, out = rel ++ loc ∧ loc ≠ []) ∧
      is_path_excluded_by_pattern (renderSegs out) cfg.exclude_patterns false = false
  | .node files dirs, rel, out => fun hmem => by
    rw [scanSegs] at hmem
    rcases List.mem_append.mp hmem with hf | hd
    · obtain ⟨f, hfmem, hfeq⟩ := List.mem_filterMap.mp hf
      obtain ⟨ho, hex, hinc⟩ := fileKeep_eq_some hfeq
      refine ⟨⟨[f.1], ho, by simp⟩, ?_⟩
      rw [ho]
      exact hex
    · exact mem_scanSegsDirs_shape dirs rel out hd

theorem mem_scanSegsDirs_shape {cfg : ScanConfig} {root : String} :
    ∀ (dirs : List (String × FSDir)) (rel out : List String),
      out ∈ scanSegsDirs cfg root rel dirs →
      (∃ loc, out = rel ++ loc ∧ loc ≠ []) ∧
      is_path_excluded_by_pattern (renderSegs out) cfg.exclude_patterns false = false
  | [], rel, out => fun h => by
    rw [scanSegsDirs] at h
    exact absurd h (List.not_mem_nil out)
  | d :: rest, rel, out => fun hmem => by
    rw [scanSegsDirs] at hmem
    rcases List.mem_append.mp hmem with hin | hrest
    · by_cases hp : pruneDir cfg rel d.1 = true
      · rw [if_pos hp] at hin
        exact absurd hin (List.not_mem_nil out)
      · rw [if_neg hp] at hin
        obtain ⟨⟨loc, hloc, hne⟩, hex⟩ := mem_scanSegs_shape d.2 (rel ++ [d.1]) out hin
        exact ⟨⟨d.1 :: loc, by rw [hloc]; simp, by simp⟩, hex⟩
    · exact mem_scanSegsDirs_shape rest rel out hrest
end

/-- C5: a file whose relative path glob-matches both an include pattern and
an exclude pattern is not in the scanner's output: exclusion wins. -/
theorem exclude_overrides_include (root : String) (cfg : ScanConfig) (t : FSDir)
    (frel : String)
    (hinc : ∃ p ∈ cfg.include_patterns, fnmatch (pyLower frel) (pyLower p) = true)
    (hexc : ∃ p ∈ cfg.exclude_patterns, fnmatch (pyLower frel) (pyLower p) = true) :
    root ++ "/" ++ frel ∉ scan_project root cfg t := by
  intro hmem
  obtain ⟨segs, hsegs, habs⟩ := mem_scan_project.mp hmem
  obtain ⟨-, hnotex⟩ := mem_scanSegs_shape t [] segs hsegs
  have hrender : renderSegs segs = frel := by
    rw [absString] at habs
    exact stringAppend_left_cancel habs
  have hex_true : is_path_excluded_by_pattern frel cfg.exclude_patterns false = true := by
    rw [is_path_excluded_by_pattern, List.any_eq_true]
    obtain ⟨p, hp, hm⟩ := hexc
    refine ⟨p, hp, ?_⟩
    rw [Bool.or_eq_true]
    exact Or.inl hm
  rw [hrender, hex_true] at hnotex
  exact Bool.noConfusion hnotex

/-- Witness for C5: `a.py` matches both the include pattern `*.py` and the
exclude pattern `a.*`, and is absent from the scan of a tree containing
it. -/
theorem exclude_overrides_include_witness :
    "/r" ++ "/" ++ "a.py" ∉
      scan_project "/r"
        { include_patterns := ["*.py"], exclude_patterns := ["a.*"] }
        (.node [("a.py", 1), ("b.py", 1)] []) :=
  exclude_overrides_include "/r"
    { include_patterns := ["*.py"], exclude_patterns := ["a.*"] }
    (.node [("a.py", 1), ("b.py", 1)] []) "a.py"
    ⟨"*.py", by decide, by decide⟩ ⟨"a.*", by decide, by decide⟩

/-! ## Well-formedness bookkeeping for the pruning theorem -/

theorem WFDirs_forall {dirs : List (String × FSDir)} :
    WFDirs dirs = true ↔ ∀ d ∈ dirs, WFDir d.2 = true := by
  induction dirs with
  | nil => simp [WFDirs]
  | cons d rest ih =>
    rw [WFDirs, Bool.and_eq_true, ih]
    constructor
    · rintro ⟨h1, h2⟩ e he
      rcases List.mem_cons.mp he with rfl | hm
      · exact h1
      · exact h2 e hm
    · intro h
      exact ⟨h d (List.mem_cons_self d rest),
        fun e he => h e (List.mem_cons_of_mem d he)⟩

theorem WFDir_node_parts {files : List (String × Nat)} {dirs : List (String × FSDir)}
    (h : WFDir (.node files dirs) = true) :
    (∀ f ∈ files, okName f.1 = true) ∧ (∀ d ∈ dirs, okName d.1 = true) ∧
    (dirs.map Prod.fst).Nodup ∧ ∀ d ∈ dirs, WFDir d.2 = true := by
  rw [WFDir] at h
  simp only [Bool.and_eq_true, List.all_eq_true, decide_eq_true_eq] at h
  exact ⟨h.1.1.1, h.1.1.2, h.1.2, WFDirs_forall.mp h.2⟩

theorem okName_spec {n : String} (h : okName n = true) :
    n.data ≠ [] ∧ ¬ '/' ∈ n.data := by
  rw [okName] at h
  simp only [Bool.and_eq_true, Bool.not_eq_true'] at h
  obtain ⟨h1, h2⟩ := h
  constructor
  · intro hd
    apply absurd h1
    simp only [decide_eq_false_iff_not, ne_eq, Decidable.not_not]
    cases n
    simp_all
  · intro hm
    rw [show n.data.contains '/' = true by
      exact List.elem_iff.mpr hm] at h2
    exact Bool.noConfusion h2

theorem lookupDir_mem {n : String} {dirs : List (String × FSDir)} {c : FSDir}
    (h : lookupDir n dirs = some c) : (n, c) ∈ dirs := by
  induction dirs with
  | nil => simp [lookupDir] at h
  | cons d rest ih =>
    rw [lookupDir] at h
    by_cases he : d.1 = n
    · rw [if_pos he] at h
      simp only [Option.some.injEq] at h
      subst h
      rw [← he]
      exact List.mem_cons_self d rest
    · rw [if_neg he] at h
      exact List.mem_cons_of_mem d (ih h)

theorem lookupDir_of_mem_nodup {dirs : List (String × FSDir)}
    (hnd : (dirs.map Prod.fst).Nodup) {dd : String × FSDir} (hdd : dd ∈ dirs) :
    lookupDir dd.1 dirs = some dd.2 := by
  induction dirs with
  | nil => simp at hdd
  | cons d rest ih =>
    rw [List.map_cons, List.nodup_cons] at hnd
    rcases List.mem_cons.mp hdd with rfl | hm
    · rw [lookupDir, if_pos rfl]
    · rw [lookupDir]
      have hne : d.1 ≠ dd.1 := by
        intro he
        exact hnd.1 (he ▸ List.mem_map_of_mem Prod.fst hm)
      rw [if_neg hne]
      exact ih hnd.2 hm

theorem subdirAt_names_ok :
    ∀ (path : List String) (t : FSDir) (sub : FSDir), WFDir t = true →
      subdirAt t path = some sub →
      (∀ s ∈ path, okName s = true) ∧ WFDir sub = true := by
  intro path
  induction path with
  | nil =>
    intro t sub hwf hsub
    rw [subdirAt] at hsub
    simp only [Option.some.injEq] at hsub
    subst hsub
    exact ⟨by simp, hwf⟩
  | cons d rest ih =>
    intro t sub hwf hsub
    cases t with
    | node files dirs =>
      rw [subdirAt] at hsub
      cases hl : lookupDir d dirs with
      | none => rw [hl] at hsub; simp at hsub
      | some sub0 =>
        rw [hl] at hsub
        obtain ⟨-, hnames, -, hsubs⟩ := WFDir_node_parts hwf
        have hmem := lookupDir_mem hl
        obtain ⟨hrest, hsub'⟩ := ih sub0 sub (hsubs _ hmem) hsub
        refine ⟨?_, hsub'⟩
        intro s hs
        rcases List.mem_cons.mp hs with rfl | hm
        · exact hnames _ hmem
        · exact hrest s hm

mutual
theorem filesUnder_names_ok :
    ∀ (t : FSDir) (fs : List String), WFDir t = true → fs ∈ filesUnderSegs t →
      fs ≠ [] ∧ ∀ s ∈ fs, okName s = true
  | .node files dirs, fs => fun hwf hmem => by
    rw [filesUnderSegs] at hmem
    obtain ⟨hfiles, hnames, -, hsubs⟩ := WFDir_node_parts hwf
    rcases List.mem_append.mp hmem with hf | hd
    · obtain ⟨f, hfm, rfl⟩ := List.mem_map.mp hf
      refine ⟨by simp, ?_⟩
      intro s hs
      rw [List.mem_singleton.mp hs]
      exact hfiles f hfm
    · exact filesUnderDirs_names_ok dirs fs
        (fun d hd2 => ⟨hnames d hd2, hsubs d hd2⟩) hd

theorem filesUnderDirs_names_ok :
    ∀ (dirs : List (String × FSDir)) (fs : List String),
      (∀ d ∈ dirs, okName d.1 = true ∧ WFDir d.2 = true) →
      fs ∈ filesUnderSegsDirs dirs →
      fs ≠ [] ∧ ∀ s ∈ fs, okName s = true
  | [], fs => fun _ h => by
    rw [filesUnderSegsDirs] at h
    exact absurd h (List.not_mem_nil fs)
  | d :: rest, fs => fun hok hmem => by
    rw [filesUnderSegsDirs] at hmem
    rcases List.mem_append.mp hmem with hin | hrest
    · obtain ⟨fs0, hfs0, rfl⟩ := List.mem_map.mp hin
      obtain ⟨hdn, hdw⟩ := hok d (List.mem_cons_self d rest)
      obtain ⟨-, hall⟩ := filesUnder_names_ok d.2 fs0 hdw hfs0
      refine ⟨by simp, ?_⟩
      intro s hs
      rcases List.mem_cons.mp hs with rfl | hm
      · exact hdn
      · exact hall s hm
    · exact filesUnderDirs_names_ok rest fs
        (fun e he => hok e (List.mem_cons_of_mem d he)) hrest
end

mutual
theorem scanSegs_names_ok {cfg : ScanConfig} {root : String} :
    ∀ (t : FSDir) (rel out : List String), WFDir t = true →
      (∀ s ∈ rel, okName s = true) → out ∈ scanSegs cfg root rel t →
      ∀ s ∈ out, okName s = true
  | .node files dirs, rel, out => fun hwf hrel hmem => by
    rw [scanSegs] at hmem
    obtain ⟨hfiles, hnames, -, hsubs⟩ := WFDir_node_parts hwf
    rcases List.mem_append.mp hmem with hf | hd
    · obtain ⟨f, hfm, hfeq⟩ := List.mem_filterMap.mp hf
      obtain ⟨rfl, -, -⟩ := fileKeep_eq_some hfeq
      intro s hs
      rcases List.mem_append.mp hs with hm | hm
      · exact hrel s hm
      · rw [List.mem_singleton.mp hm]
        exact hfiles f hfm
    · exact scanSegsDirs_names_ok dirs rel out
        (fun d hd2 => ⟨hnames d hd2, hsubs d hd2⟩) hrel hd

theorem scanSegsDirs_names_ok {cfg : ScanConfig} {root : String} :
    ∀ (dirs : List (String × FSDir)) (rel out : List String),
      (∀ d ∈ dirs, okName d.1 = true ∧ WFDir d.2 = true) →
      (∀ s ∈ rel, okName s = true) → out ∈ scanSegsDirs cfg root rel dirs →
      ∀ s ∈ out, okName s = true
  | [], rel, out => fun _ _ h => by
    rw [scanSegsDirs] at h
    exact absurd h (List.not_mem_nil out)
  | d :: rest, rel, out => fun hok hrel hmem => by
    rw [scanSegsDirs] at hmem
    rcases List.mem_append.mp hmem with hin | hrest
    · by_cases hp : pruneDir cfg rel d.1 = true
      · rw [if_pos hp] at hin
        exact absurd hin (List.not_mem_nil out)
      · rw [if_neg hp] at hin
        obtain ⟨hdn, hdw⟩ := hok d (List.mem_cons_self d rest)
        refine scanSegs_names_ok d.2 (rel ++ [d.1]) out hdw ?_ hin
        intro s hs
        rcases List.mem_append.mp hs with hm | hm
        · exact hrel s hm
        · rw [List.mem_singleton.mp hm]
          exact hdn
    · exact scanSegsDirs_names_ok rest rel out
        (fun e he => hok e (List.mem_cons_of_mem d he)) hrel hrest
end

/-! ## Injectivity of the slash join on real names -/

theorem splitFirstSlash :
    ∀ (x y u v : List Char), ¬ '/' ∈ x → ¬ '/' ∈ y →
      x ++ '/' :: u = y ++ '/' :: v → x = y ∧ u = v := by
  intro x
  induction x with
  | nil =>
    intro y u v hx hy h
    cases y with
    | nil =>
      simp only [List.nil_append, List.cons.injEq] at h
      exact ⟨rfl, h.2⟩
    | cons b bs =>
      simp only [List.nil_append, List.cons_append, List.cons.injEq] at h
      exact absurd (h.1 ▸ List.mem_cons_self b bs) hy
  | cons a as ih =>
    intro y u v hx hy h
    cases y with
    | nil =>
      simp only [List.cons_append, List.nil_append, List.cons.injEq] at h
      exact absurd (h.1 ▸ List.mem_cons_self a as) hx
    | cons b bs =>
      simp only [List.cons_append, List.cons.injEq] at h
      obtain ⟨rfl, h2⟩ := h
      have hx2 : ¬ '/' ∈ as := fun hm => hx (List.mem_cons_of_mem a hm)
      have hy2 : ¬ '/' ∈ bs := fun hm => hy (List.mem_cons_of_mem a hm)
      obtain ⟨he, hu⟩ := ih bs u v hx2 hy2 h2
      exact ⟨by rw [he], hu⟩

theorem renderSegs_cons_cons_data (s t2 : String) (bs : List String) :
    (renderSegs (s :: t2 :: bs)).data = s.data ++ '/' :: (renderSegs (t2 :: bs)).data := by
  rw [show renderSegs (s :: t2 :: bs) = s ++ "/" ++ renderSegs (t2 :: bs) from rfl]
  simp [String.data_append]

theorem stringDataInj {a b : String} (h : a.data = b.data) : a = b := by
  cases a
  cases b
  exact congrArg String.mk h

theorem renderSegs_data_ne_nil (s : String) (bs : List String)
    (hok : ∀ x ∈ s :: bs, okName x = true) :
    (renderSegs (s :: bs)).data ≠ [] := by
  cases bs with
  | nil =>
    exact (okName_spec (hok s (List.mem_cons_self s []))).1
  | cons t2 bs2 =>
    rw [renderSegs_cons_cons_data]
    simp

theorem renderSegs_inj :
    ∀ (a b : List String),
      (∀ s ∈ a, okName s = true) → (∀ s ∈ b, okName s = true) →
      renderSegs a = renderSegs b → a = b := by
  intro a
  induction a with
  | nil =>
    intro b ha hb h
    cases b with
    | nil => rfl
    | cons s bs =>
      exfalso
      apply renderSegs_data_ne_nil s bs hb
      rw [← h]
      rfl
  | cons s as ih =>
    intro b ha hb h
    cases b with
    | nil =>
      exfalso
      apply renderSegs_data_ne_nil s as ha
      rw [h]
      rfl
    | cons t2 bs =>
      have hs := okName_spec (ha s (List.mem_cons_self s as))
      have ht := okName_spec (hb t2 (List.mem_cons_self t2 bs))
      cases as with
      | nil =>
        cases bs with
        | nil =>
          rw [show renderSegs [s] = s from rfl, show renderSegs [t2] = t2 from rfl] at h
          rw [h]
        | cons b2 bs2 =>
          exfalso
          have hd := congrArg String.data h
          rw [show (renderSegs [s]).data = s.data from rfl,
            renderSegs_cons_cons_data] at hd
          exact hs.2 (hd ▸ List.mem_append_right t2.data (List.mem_cons_self '/' _))
      | cons a2 as2 =>
        cases bs with
        | nil =>
          exfalso
          have hd := congrArg String.data h
          rw [show (renderSegs [t2]).data = t2.data from rfl,
            renderSegs_cons_cons_data] at hd
          exact ht.2 (hd ▸ List.mem_append_right s.data (List.mem_cons_self '/' _))
        | cons b2 bs2 =>
          have hd := congrArg String.data h
          rw [renderSegs_cons_cons_data, renderSegs_cons_cons_data] at hd
          obtain ⟨h1, h2⟩ := splitFirstSlash s.data t2.data _ _ hs.2 ht.2 hd
          have hse : s = t2 := stringDataInj h1
          have hre : renderSegs (a2 :: as2) = renderSegs (b2 :: bs2) :=
            stringDataInj h2
          have htail := ih (b2 :: bs2)
            (fun x hx => ha x (List.mem_cons_of_mem s hx))
            (fun x hx => hb x (List.mem_cons_of_mem t2 hx)) hre
          rw [hse, htail]
/-! ## Pruning avoidance -/

theorem mem_scanSegsDirs_exists {cfg : ScanConfig} {root : String}
    {rel : List String} {dirs : List (String × FSDir)} {out : List String}
    (h : out ∈ scanSegsDirs cfg root rel dirs) :
    ∃ dd ∈ dirs, pruneDir cfg rel dd.1 = false ∧
      out ∈ scanSegs cfg root (rel ++ [dd.1]) dd.2 := by
  induction dirs with
  | nil =>
    rw [scanSegsDirs] at h
    exact absurd h (List.not_mem_nil out)
  | cons d rest ih =>
    rw [scanSegsDirs] at h
    rcases List.mem_append.mp h with hin | hrest
    · by_cases hp : pruneDir cfg rel d.1 = true
      · rw [if_pos hp] at hin
        exact absurd hin (List.not_mem_nil out)
      · rw [if_neg hp] at hin
        exact ⟨d, List.mem_cons_self d rest, by simpa using hp, hin⟩
    · obtain ⟨dd, hm, hpr, hmem⟩ := ih hrest
      exact ⟨dd, List.mem_cons_of_mem d hm, hpr, hmem⟩

/-- No output of the scanner strictly descends through a directory whose
bare name or relative path is in `exclude_dirs`: the walk prunes it before
visiting its contents. -/
theorem scanSegs_avoid_pruned (cfg : ScanConfig) (root : String) :
    ∀ (path : List String) (t : FSDir) (rel : List String) (sub : FSDir),
      WFDir t = true →
      subdirAt t path = some sub →
      path ≠ [] →
      ((∃ d0, path.getLast? = some d0 ∧ d0 ∈ cfg.exclude_dirs) ∨
        renderSegs (rel ++ path) ∈ cfg.exclude_dirs) →
      ∀ out ∈ scanSegs cfg root rel t, ∀ ext, ext ≠ [] →
        out ≠ rel ++ (path ++ ext) := by
  intro path
  induction path with
  | nil =>
    intro t rel sub _ _ hne
    exact absurd rfl hne
  | cons d rest ih =>
    intro t rel sub hwf hsub hne hex out hout ext hextne heq
    cases t with
    | node files dirs =>
      obtain ⟨hfileok, hnames, hnodup, hsubs⟩ := WFDir_node_parts hwf
      rw [scanSegs] at hout
      rcases List.mem_append.mp hout with hf | hd
      · obtain ⟨f, hfm, hfeq⟩ := List.mem_filterMap.mp hf
        obtain ⟨ho, -, -⟩ := fileKeep_eq_some hfeq
        rw [ho] at heq
        have hcanc := List.append_cancel_left heq
        rw [List.cons_append] at hcanc
        injection hcanc with h1 h2
        obtain ⟨-, hext0⟩ := List.append_eq_nil.mp h2.symm
        exact hextne hext0
      · obtain ⟨dd, hddm, hpr, hin⟩ := mem_scanSegsDirs_exists hd
        obtain ⟨⟨loc, hloc, -⟩, -⟩ := mem_scanSegs_shape dd.2 (rel ++ [dd.1]) out hin
        rw [heq, List.append_assoc] at hloc
        have hcanc := List.append_cancel_left hloc
        rw [List.singleton_append] at hcanc
        simp only [List.cons_append, List.cons.injEq] at hcanc
        obtain ⟨hdd1, hloc2⟩ := hcanc
        cases rest with
        | nil =>
          have hptrue : pruneDir cfg rel dd.1 = true := by
            rw [pruneDir, ← hdd1]
            rcases hex with ⟨d0, hd0, hd0m⟩ | hrender
            · have hd0e : d = d0 := by simpa using hd0
              rw [← hd0e] at hd0m
              simp [hd0m]
            · simp [hrender]
          rw [hptrue] at hpr
          exact Bool.noConfusion hpr
        | cons r2 rest2 =>
          rw [subdirAt] at hsub
          cases hl : lookupDir d dirs with
          | none =>
            rw [hl] at hsub
            exact Option.noConfusion hsub
          | some sub0 =>
            rw [hl] at hsub
            have hl2 := lookupDir_of_mem_nodup hnodup hddm
            rw [← hdd1] at hl2
            rw [hl] at hl2
            have hdd2 : dd.2 = sub0 := by
              injection hl2 with h2
              exact h2.symm
            refine ih sub0 (rel ++ [d]) sub
              (by rw [← hdd2]; exact hsubs dd hddm) hsub (by simp) ?_ out
              (by rw [← hdd2, hdd1]; exact hin) ext hextne ?_
            · rcases hex with ⟨d0, hd0, hd0m⟩ | hrender
              · left
                rw [List.getLast?_cons_cons] at hd0
                exact ⟨d0, hd0, hd0m⟩
              · right
                rw [List.append_assoc, List.singleton_append]
                exact hrender
            · rw [heq]
              simp

/-- C4: for every well-formed tree, no file under a directory whose bare
name or slash-normalized relative path is in `exclude_dirs` appears in
`scan_project`'s output, whatever `include_patterns` (and the rest of the
configuration) contain. -/
theorem pruning_correctness (root : String) (cfg : ScanConfig) (t : FSDir)
    (hwf : WFDir t = true)
    (path : List String) (sub : FSDir)
    (hsub : subdirAt t path = some sub)
    (hne : path ≠ [])
    (hex : (∃ d0, path.getLast? = some d0 ∧ d0 ∈ cfg.exclude_dirs) ∨
        renderSegs path ∈ cfg.exclude_dirs)
    (fsegs : List String) (hf : fsegs ∈ filesUnderSegs sub) :
    absString root (path ++ fsegs) ∉ scan_project root cfg t := by
  intro hmem
  obtain ⟨segs, hsegs, habs⟩ := mem_scan_project.mp hmem
  have hrender : renderSegs segs = renderSegs (path ++ fsegs) := by
    rw [absString, absString] at habs
    exact stringAppend_left_cancel habs
  obtain ⟨hpathok, hsubwf⟩ := subdirAt_names_ok path t sub hwf hsub
  obtain ⟨hfne, hfok⟩ := filesUnder_names_ok sub fsegs hsubwf hf
  have hsegsok : ∀ s ∈ segs, okName s = true :=
    scanSegs_names_ok t [] segs hwf (by simp) hsegs
  have hbothok : ∀ s ∈ path ++ fsegs, okName s = true := by
    intro s hs
    rcases List.mem_append.mp hs with hm | hm
    · exact hpathok s hm
    · exact hfok s hm
  have hseq : segs = path ++ fsegs :=
    renderSegs_inj segs (path ++ fsegs) hsegsok hbothok hrender
  exact scanSegs_avoid_pruned cfg root path t [] sub hwf hsub hne
    (by simpa using hex) segs hsegs fsegs hfne (by rw [hseq]; simp)

/-- Witness for C4: the file `secret/f.txt` under the excluded directory
`secret` is absent from the scan, although `include_patterns` would accept
it. -/
theorem pruning_correctness_witness :
    absString "/r" (["secret"] ++ ["f.txt"]) ∉
      scan_project "/r" { exclude_dirs := ["secret"], include_patterns := ["*.txt"] }
        (.node [("keep.txt", 1)] [("secret", .node [("f.txt", 1)] [])]) :=
  pruning_correctness "/r" { exclude_dirs := ["secret"], include_patterns := ["*.txt"] }
    (.node [("keep.txt", 1)] [("secret", .node [("f.txt", 1)] [])]) rfl
    ["secret"] (.node [("f.txt", 1)] []) rfl (by simp)
    (Or.inl ⟨"secret", rfl, by simp⟩) ["f.txt"] (by decide)

end Codecat

